import Mathlib

/-!
Shallow embedding of `src/jsonParser.cpp` (namespace `json`): the `Node` value
model, the cursor-based recursive-descent `JsonParser`, and the `JsonGenerator`
serializer.

Modelling conventions:
* The source text `std::string_view str` is a `List Char`; the cursor `size_t pos`
  is a `Nat` inside the state `PSt`.
* The C++ code indexes `str[pos]` without a bounds check in several places.  In
  the program the view is backed by a `std::string`, so index `length` reads the
  null terminator; any larger index would be an out-of-bounds access.  The
  embedding makes every such unguarded read total via `readAt`, which returns
  `'\x00'` past the end and records in the state whether a read at index
  `>= length` (field `oobAtEnd`) or `> length` (field `oobPast`) has occurred.
  Loops whose C++ condition already checks `pos < str.size()` read in bounds and
  are not instrumented.
* `std::expected<Value, std::string>` becomes `Res Value`.  The dispatcher
  `parse_value` prints the message of a failed sub-production and calls
  `exit(0)`; that process termination is modelled by the third constructor
  `Res.exited` (introduced by `liftExit`).  Error message strings are kept
  verbatim.
* The mutual recursion `parse_value` / `parse_array` / `parse_object` and the
  container loops are given a fuel argument (an artefact of the embedding; the
  top entry point supplies `3 * length + 3`, shown sufficient where needed).
  The bounded scanning loops (whitespace, numeral, string body, comma skipping)
  are expressed with `List.takeWhile` over the remaining suffix, which computes
  the same index the C++ scan reaches.
* `Int` is `int64_t` in the source, but the numeral conversion uses `std::stoi`,
  whose target `int` is 32 bits on the reference platforms: `stoiModel` succeeds
  exactly on nonempty digit strings whose value is at most `2147483647`
  (`std::stoi` throws `std::out_of_range` above that, caught by the code).
* `double` values are represented at exact rational precision: `floatVal`
  computes the rational denoted by the longest prefix of the captured numeral
  that `strtod` accepts, and `stodOverflows` models the overflow throw at the
  IEEE double round-to-infinity threshold.  (Binary rounding of `strtod` and the
  platform-dependent underflow throw are below the resolution of this model; no
  theorem below depends on them.)
* `json::Object` is `std::map<std::string, Node>`: it is embedded as an
  association list kept strictly sorted by `keyLt` (byte-wise lexicographic
  order, the order of `std::less<std::string>`); `mapInsert` is `obj[key] = v`.
-/

/-- ASCII `std::isdigit`. -/
def isDigitChar (c : Char) : Bool := 48 ≤ c.toNat && c.toNat ≤ 57

/-- ASCII `std::isspace`: space, `\t`, `\n`, `\v`, `\f`, `\r`. -/
def isSpaceChar (c : Char) : Bool := c.toNat = 32 || (9 ≤ c.toNat && c.toNat ≤ 13)

/-- The character class scanned by `parse_numbers`: digits, `.`, lowercase `e`. -/
def isNumChar (c : Char) : Bool := isDigitChar c || c = '.' || c = 'e'

/-- The value alternatives of `json::Node` (`std::variant<Int, Null, String,
Bool, Float, Array, Object>`).  `Node` only wraps a `Value`, so the wrapper is
not modelled separately. -/
inductive Value where
  | VInt (i : Int)
  | VNull
  | VString (s : List Char)
  | VBool (b : Bool)
  | VFloat (q : ℚ)
  | VArray (elems : List Value)
  | VObject (entries : List (List Char × Value))

/-- Result of a parsing routine: `ok` and `err` are the two states of
`std::expected`; `exited` records that the process was terminated by the
`exit(0)` calls inside `parse_value` (after printing the message). -/
inductive Res (α : Type) where
  | ok (v : α)
  | err (msg : List Char)
  | exited (msg : List Char)

/-- Parser state: the cursor `pos` plus instrumentation recording whether an
unguarded `str[...]` access ever touched index `length` (the terminator) or an
index beyond it. -/
structure PSt where
  pos : Nat
  oobAtEnd : Bool
  oobPast : Bool
deriving DecidableEq

/-- An unguarded `str[i]` access: yields the character (null past the end, as
the null-terminated backing buffer does at index `length`) and records
out-of-bounds information. -/
def readAt (s : List Char) (i : Nat) (st : PSt) : Char × PSt :=
  match st with
  | ⟨p, a, b⟩ =>
    (s.getD i '\x00', ⟨p, a || decide (s.length ≤ i), b || decide (s.length < i)⟩)

/-- Numeric value of a digit string (most significant first). -/
def digitsToNat (l : List Char) : Nat := l.foldl (fun a c => a * 10 + (c.toNat - 48)) 0

/-- Decimal digits of `n`, auxiliary recursion on a fuel that `n` itself bounds. -/
def natToDigitsAux : Nat → Nat → List Char
  | 0, _ => []
  | fuel + 1, n => if n = 0 then [] else natToDigitsAux fuel (n / 10) ++ [Char.ofNat (48 + n % 10)]

/-- Decimal digit string of a natural number (no leading zeros, `"0"` for 0). -/
def natToDigits (n : Nat) : List Char := if n = 0 then ['0'] else natToDigitsAux n n

/-- `std::to_string` on `int64_t`: optional minus sign and decimal digits. -/
def intToDigits (i : Int) : List Char :=
  if i < 0 then '-' :: natToDigits (-i).toNat else natToDigits i.toNat

/-- `std::stoi` applied to the captured numeral of the integer branch of
`parse_numbers` (a digit-only string there): value of the digits if it fits a
32-bit `int`, otherwise `none` (`std::out_of_range`); `none` on the empty
capture (`std::invalid_argument`). -/
def stoiModel (num : List Char) : Option Int :=
  if num = [] then none
  else if digitsToNat num ≤ 2147483647 then some (digitsToNat num) else none

/-- The rational denoted by the longest prefix of the captured numeral that
`strtod` accepts: digits, optional `.` with digits, optional `e` exponent with
at least one digit (signs never occur, the scan of `parse_numbers` does not
capture them). -/
def floatVal (num : List Char) : ℚ :=
  let ip := num.takeWhile isDigitChar
  let r1 := num.dropWhile isDigitChar
  let fp := if r1.head? = some '.' then (r1.drop 1).takeWhile isDigitChar else []
  let r2 := if r1.head? = some '.' then (r1.drop 1).dropWhile isDigitChar else r1
  let ep :=
    if r2.head? = some 'e' && !((r2.drop 1).takeWhile isDigitChar).isEmpty then
      (r2.drop 1).takeWhile isDigitChar
    else []
  mkRat (digitsToNat (ip ++ fp) * 10 ^ digitsToNat ep) (10 ^ fp.length)

/-- The midpoint above the largest finite double: a decimal value at or above it
rounds to infinity. -/
def stodMax : Nat := (2 ^ 54 - 1) * 2 ^ 970

/-- `std::stod` overflow (`std::out_of_range`): the value rounds to infinity.
`stodMax ≤ q` is stated on the numerator and (positive) denominator so that it
evaluates by integer arithmetic. -/
def stodOverflows (q : ℚ) : Bool := decide ((stodMax : Int) * (q.den : Int) ≤ q.num)

/-- `std::less<std::string>`: byte-wise lexicographic comparison. -/
def keyLt : List Char → List Char → Bool
  | [], [] => false
  | [], _ :: _ => true
  | _ :: _, [] => false
  | c :: t, c2 :: t2 =>
    if c.toNat < c2.toNat then true
    else if c2.toNat < c.toNat then false
    else keyLt t t2

/-- `obj[key] = value` on `std::map`: insert into the sorted association list,
overwriting the value if the key is present. -/
def mapInsert (k : List Char) (v : Value) : List (List Char × Value) → List (List Char × Value)
  | [] => [(k, v)]
  | (k2, v2) :: tl =>
    if keyLt k k2 then (k, v) :: (k2, v2) :: tl
    else if k = k2 then (k, v) :: tl
    else (k2, v2) :: mapInsert k v tl

/-- `std::map::find`-style lookup in the association list. -/
def mapLookup (k : List Char) : List (List Char × Value) → Option Value
  | [] => none
  | (k2, v2) :: tl => if k = k2 then some v2 else mapLookup k tl

/-- `JsonParser::parse_whitespace`: `while (std::isspace(str[pos])) pos++;`.
The loop is unguarded; reading at `pos + k` models its final stopping read (the
skipped characters themselves are in bounds). -/
def parse_whitespace (s : List Char) (st : PSt) : PSt :=
  match st with
  | ⟨p, a, b⟩ =>
    match readAt s (p + ((s.drop p).takeWhile isSpaceChar).length) ⟨p, a, b⟩ with
    | (_, ⟨_, a2, b2⟩) => ⟨p + ((s.drop p).takeWhile isSpaceChar).length, a2, b2⟩

/-- `JsonParser::parse_null`. -/
def parse_null (s : List Char) (st : PSt) : Res Value × PSt :=
  match st with
  | ⟨p, a, b⟩ =>
    if (s.drop p).take 4 = "null".data then
      (.ok .VNull, ⟨p + 4, a, b⟩)
    else
      (.err ((s.drop p).take 4 ++ " is not defined, wanna use \x22null\x22? ".data), ⟨p, a, b⟩)

/-- `JsonParser::parse_true`. -/
def parse_true (s : List Char) (st : PSt) : Res Value × PSt :=
  match st with
  | ⟨p, a, b⟩ =>
    if (s.drop p).take 4 = "true".data then
      (.ok (.VBool true), ⟨p + 4, a, b⟩)
    else
      (.err ((s.drop p).take 4 ++ " is not defined, wanna use \x22true\x22? ".data), ⟨p, a, b⟩)

/-- `JsonParser::parse_false`. -/
def parse_false (s : List Char) (st : PSt) : Res Value × PSt :=
  match st with
  | ⟨p, a, b⟩ =>
    if (s.drop p).take 5 = "false".data then
      (.ok (.VBool false), ⟨p + 5, a, b⟩)
    else
      (.err ((s.drop p).take 5 ++ " is not defined, wanna use \x22false\x22? ".data), ⟨p, a, b⟩)

/-- `JsonParser::parse_numbers`: skip whitespace, scan the digit/`.`/`e` class,
classify by the presence of `.` or `e`, convert with `stod` / `stoi`. -/
def parse_numbers (s : List Char) (st : PSt) : Res Value × PSt :=
  match parse_whitespace s st with
  | ⟨p1, a1, b1⟩ =>
    match (s.drop p1).takeWhile isNumChar with
    | num =>
      if num.contains '.' || num.contains 'e' then
        if stodOverflows (floatVal num) then
          (.err ("try parsing ".data ++ num ++ " to float, but failed.".data),
           ⟨p1 + num.length, a1, b1⟩)
        else
          (.ok (.VFloat (floatVal num)), ⟨p1 + num.length, a1, b1⟩)
      else
        match stoiModel num with
        | some i => (.ok (.VInt i), ⟨p1 + num.length, a1, b1⟩)
        | none =>
          (.err ("try parsing ".data ++ num ++ " to integer, but failed.".data),
           ⟨p1 + num.length, a1, b1⟩)

/-- The scan of `JsonParser::parse_string` from the cursor `p1` that follows the
optional opening quote: `endpos` runs to the next quote (guarded loop), then
`str[endpos]` is checked (unguarded read) and the production either fails or
returns the scanned substring with the cursor moved past the closing quote. -/
def parse_string_scan (s : List Char) (p1 : Nat) (a0 b0 : Bool) : Res (List Char) × PSt :=
  match readAt s (p1 + ((s.drop p1).takeWhile (fun ch => ch ≠ '\x22')).length)
      ⟨p1, a0, b0⟩ with
  | (c2, ⟨_, a2, b2⟩) =>
    if c2 ≠ '\x22' then (.err "failed to find \x27\x22\x27".data, ⟨p1, a2, b2⟩)
    else (.ok ((s.drop p1).takeWhile (fun ch => ch ≠ '\x22')),
      ⟨p1 + ((s.drop p1).takeWhile (fun ch => ch ≠ '\x22')).length + 1, a2, b2⟩)

/-- `JsonParser::parse_string`: consume an opening quote if present (unguarded
read), then scan for the closing quote. -/
def parse_string (s : List Char) (st : PSt) : Res (List Char) × PSt :=
  match readAt s st.pos st with
  | (c, ⟨p0, a0, b0⟩) =>
    parse_string_scan s (if c = '\x22' then p0 + 1 else p0) a0 b0

/-- `while (pos < str.size() && str[pos] == ',') pos++;` (guarded loop). -/
def skipCommas (s : List Char) (st : PSt) : PSt :=
  match st with
  | ⟨p, a, b⟩ => ⟨p + ((s.drop p).takeWhile (fun c => c = ',')).length, a, b⟩

/-- The `exit(0)` branches of `JsonParser::parse_value`: a failed sub-production
has its message printed and the process terminated. -/
def liftExit : Res Value × PSt → Res Value × PSt
  | (.ok v, st) => (.ok v, st)
  | (.err m, st) => (.exited m, st)
  | (.exited m, st) => (.exited m, st)

/-- The `'\x22'` dispatch case of `parse_value`: the substring returned by
`parse_string` becomes a `String` node. -/
def parse_stringV (s : List Char) (st : PSt) : Res Value × PSt :=
  match parse_string s st with
  | (.ok cs, st3) => (.ok (.VString cs), st3)
  | (.err m, st3) => (.err m, st3)
  | (.exited m, st3) => (.exited m, st3)

/-- The members of the mutual recursion `parse_value` / `parse_array` (with its
element loop and accumulator) / `parse_object` (with its member loop and
accumulator).  Packing them into one fuel-indexed function `parseRun` keeps the
recursion structural, so that it evaluates by kernel reduction; the functions of
the source are the wrappers below. -/
inductive PCall where
  | value
  | array
  | arrayLoopAcc (acc : List Value)
  | object
  | objectLoopAcc (acc : List (List Char × Value))

/-- The body of `JsonParser::parse_value`, with `rec` standing for the recursive
entries into `parse_array` / `parse_object`: skip whitespace and dispatch on the
character at the cursor (unguarded read).  Failures of the dispatched
productions are turned into process exits by `liftExit`; the `default` branch
returns its errors. -/
def valueStep (s : List Char) (rec : PCall → PSt → Res Value × PSt) (st : PSt) :
    Res Value × PSt :=
  match parse_whitespace s st with
  | ⟨p1, a1, b1⟩ =>
    match readAt s p1 ⟨p1, a1, b1⟩ with
    | (c, st2) =>
      if c = 'n' then liftExit (parse_null s st2)
      else if c = 't' then liftExit (parse_true s st2)
      else if c = 'f' then liftExit (parse_false s st2)
      else if c = '[' then liftExit (rec .array st2)
      else if c = '\x7b' then liftExit (rec .object st2)
      else if c = '\x22' then liftExit (parse_stringV s st2)
      else if isDigitChar c then liftExit (parse_numbers s st2)
      else if c = ']' then (.err "find \x27]\x27 without \x27[\x27 infront of".data, st2)
      else if c = '\x7d' then
        (.err "find \x27\x7d\x27 without \x27\x7b\x27 infront of".data, st2)
      else (.err ("find ".data ++ [c] ++ " at the beginning, cant parse".data), st2)

/-- The body of `JsonParser::parse_array` up to its loop: consume `[` if present
(unguarded read), then enter the element loop with an empty `Array ret`. -/
def arrayStep (s : List Char) (rec : PCall → PSt → Res Value × PSt) (st : PSt) :
    Res Value × PSt :=
  match readAt s st.pos st with
  | (c, ⟨p0, a0, b0⟩) =>
    rec (.arrayLoopAcc []) (if c = '[' then ⟨p0 + 1, a0, b0⟩ else ⟨p0, a0, b0⟩)

/-- The `while (pos < str.size() && str[pos] != ']')` loop of `parse_array`,
followed by the unguarded closing-bracket check. -/
def arrayLoopStep (s : List Char) (rec : PCall → PSt → Res Value × PSt) (st : PSt)
    (acc : List Value) : Res Value × PSt :=
  if st.pos < s.length && s.getD st.pos '\x00' != ']' then
    match rec .value (parse_whitespace s st) with
    | (.ok v, st2) =>
      rec (.arrayLoopAcc (acc ++ [v]))
        (parse_whitespace s (skipCommas s (parse_whitespace s st2)))
    | (.err m, st2) => (.err m, st2)
    | (.exited m, st2) => (.exited m, st2)
  else
    match readAt s st.pos st with
    | (c, ⟨p1, a1, b1⟩) =>
      if c != ']' then (.err "failed to find \x27]\x27".data, ⟨p1, a1, b1⟩)
      else (.ok (.VArray acc), ⟨p1 + 1, a1, b1⟩)

/-- The body of `JsonParser::parse_object` up to its loop: consume `\x7b` if
present (unguarded read), skip whitespace, then enter the member loop with an
empty `Object obj`. -/
def objectStep (s : List Char) (rec : PCall → PSt → Res Value × PSt) (st : PSt) :
    Res Value × PSt :=
  match readAt s st.pos st with
  | (c, ⟨p0, a0, b0⟩) =>
    rec (.objectLoopAcc [])
      (parse_whitespace s (if c = '\x7b' then ⟨p0 + 1, a0, b0⟩ else ⟨p0, a0, b0⟩))

/-- The `while (pos < str.size() && str[pos] != '\x7d')` loop of `parse_object`:
parse a key with `parse_string` (replacing its failure by the fixed key error),
skip whitespace, consume `:` if present (unguarded read), skip whitespace, parse
the value, insert with `obj[key] = value`, skip whitespace and commas; finally
the unguarded closing-brace check. -/
def objectLoopStep (s : List Char) (rec : PCall → PSt → Res Value × PSt) (st : PSt)
    (acc : List (List Char × Value)) : Res Value × PSt :=
  if st.pos < s.length && s.getD st.pos '\x00' != '\x7d' then
    match parse_string s st with
    | (.ok k, st1) =>
      match parse_whitespace s st1 with
      | ⟨p2, a2, b2⟩ =>
        match readAt s p2 ⟨p2, a2, b2⟩ with
        | (c2, ⟨p3, a3, b3⟩) =>
          match rec .value
              (parse_whitespace s (if c2 = ':' then ⟨p3 + 1, a3, b3⟩ else ⟨p3, a3, b3⟩)) with
          | (.ok v, st6) =>
            rec (.objectLoopAcc (mapInsert k v acc))
              (parse_whitespace s (skipCommas s (parse_whitespace s st6)))
          | (.err m, st6) => (.err m, st6)
          | (.exited m, st6) => (.exited m, st6)
    | (.err _, st1) => (.err "key of objects isnt string".data, st1)
    | (.exited m, st1) => (.exited m, st1)
  else
    match readAt s st.pos st with
    | (c, ⟨p1, a1, b1⟩) =>
      if c != '\x7d' then (.err "failed to find \x27\x7d\x27".data, ⟨p1, a1, b1⟩)
      else (.ok (.VObject acc), ⟨p1 + 1, a1, b1⟩)

/-- One fuel-indexed function carrying the five mutually recursive routines of
`JsonParser` (the step bodies above); see each wrapper below for the
correspondence with the source. -/
def parseRun (s : List Char) : Nat → PCall → PSt → Res Value × PSt
  | 0, _, st => (.err "out of fuel".data, st)
  | n + 1, pc, st =>
    match pc with
    | .value => valueStep s (parseRun s n) st
    | .array => arrayStep s (parseRun s n) st
    | .arrayLoopAcc acc => arrayLoopStep s (parseRun s n) st acc
    | .object => objectStep s (parseRun s n) st
    | .objectLoopAcc acc => objectLoopStep s (parseRun s n) st acc

/-- `JsonParser::parse_value`: skip whitespace and dispatch on the character at
the cursor (unguarded read).  Failures of the dispatched productions are turned
into process exits by `liftExit`; the `default` branch returns its errors. -/
def parse_value (s : List Char) (n : Nat) (st : PSt) : Res Value × PSt :=
  parseRun s n .value st

/-- `JsonParser::parse_array`: consume `[` if present (unguarded read), then the
`while (pos < str.size() && str[pos] != ']')` element loop, then the unguarded
closing-bracket check. -/
def parse_array (s : List Char) (n : Nat) (st : PSt) : Res Value × PSt :=
  parseRun s n .array st

/-- The element loop of `parse_array` with its accumulated `Array ret`. -/
def arrayLoop (s : List Char) (n : Nat) (st : PSt) (acc : List Value) : Res Value × PSt :=
  parseRun s n (.arrayLoopAcc acc) st

/-- `JsonParser::parse_object`: consume `\x7b` if present (unguarded read), skip
whitespace, then the member loop: parse a key with `parse_string` (replacing its
failure by the fixed key error), consume `:` if present, parse the value, insert
with `obj[key] = value`, skip commas; finally the unguarded closing-brace
check. -/
def parse_object (s : List Char) (n : Nat) (st : PSt) : Res Value × PSt :=
  parseRun s n .object st

/-- The member loop of `parse_object` with its accumulated `Object obj`. -/
def objectLoop (s : List Char) (n : Nat) (st : PSt) (acc : List (List Char × Value)) :
    Res Value × PSt :=
  parseRun s n (.objectLoopAcc acc) st

/-- `JsonParser::parse`: skip whitespace and parse one value (the `Node`
wrapper adds nothing to the value). -/
def parse (s : List Char) (fuel : Nat) (st : PSt) : Res Value × PSt :=
  parse_value s fuel (parse_whitespace s st)

/-- Fuel supplied to the mutual recursion by the top entry point; shown
sufficient for every generated text below. -/
def parserFuel (s : List Char) : Nat := 3 * s.length + 3

/-- `json::parser`: run a fresh `JsonParser` on the text (the driver-side
printing of the error message does not change the returned value). -/
def parser (s : List Char) : Res Value × PSt :=
  parse s (parserFuel s) ⟨0, false, false⟩

/-- The result of `json::parser` on a text. -/
def parseList (s : List Char) : Res Value := (parser s).1

/-- The final parser state of `json::parser` on a text (instrumentation). -/
def parseSt (s : List Char) : PSt := (parser s).2

/-- `json::parser` on a string literal. -/
def parseTop (s : String) : Res Value := parseList s.data

/-- `JsonGenerator::generate_string`: the raw content wrapped in quotes. -/
def generate_string (s : List Char) : List Char := '\x22' :: s ++ ['\x22']

/-- `std::to_string` on `double` (`%f`: six fractional digits), at the rational
precision of the model. -/
def floatToChars (q : ℚ) : List Char :=
  let n : Nat := (Int.floor (|q| * 1000000 + 1 / 2)).toNat
  let fp := natToDigits (n % 1000000)
  (if q < 0 then ['-'] else []) ++ natToDigits (n / 1000000)
    ++ '.' :: (List.replicate (6 - fp.length) '0' ++ fp)

mutual

/-- `JsonGenerator::generate`: exhaustive match over the variant; the array and
object cases carry the bodies of `generate_array` / `generate_object` inline
(see the equal wrappers below): open bracket, every member followed by `,`, pop
the trailing comma if anything was appended, close bracket. -/
def generate : Value → List Char
  | .VNull => "null".data
  | .VBool b => cond b "true".data "false".data
  | .VInt i => intToDigits i
  | .VFloat q => floatToChars q
  | .VString s => generate_string s
  | .VArray l =>
      (if ('[' :: genElems l).length > 1 then ('[' :: genElems l).dropLast
       else '[' :: genElems l) ++ [']']
  | .VObject ps =>
      (if ('\x7b' :: genEntries ps).length > 1 then ('\x7b' :: genEntries ps).dropLast
       else '\x7b' :: genEntries ps) ++ ['\x7d']

/-- The element loop of `generate_array`: each serialized element followed by
`,`. -/
def genElems : List Value → List Char
  | [] => []
  | v :: tl => generate v ++ ',' :: genElems tl

/-- The member loop of `generate_object`: each `"key":value` followed by `,`,
in the stored (ascending-key) order of the map. -/
def genEntries : List (List Char × Value) → List Char
  | [] => []
  | (k, v) :: tl => generate_string k ++ ':' :: generate v ++ ',' :: genEntries tl

end

/-- `JsonGenerator::generate_array`: `[`, every element followed by `,`, pop the
trailing comma if anything was appended, `]`. -/
def generate_array (arr : List Value) : List Char :=
  (if ('[' :: genElems arr).length > 1 then ('[' :: genElems arr).dropLast
   else '[' :: genElems arr) ++ [']']

/-- `JsonGenerator::generate_object`: `\x7b`, every `"key":value` followed by
`,`, pop the trailing comma if anything was appended, `\x7d`. -/
def generate_object (ps : List (List Char × Value)) : List Char :=
  (if ('\x7b' :: genEntries ps).length > 1 then ('\x7b' :: genEntries ps).dropLast
   else '\x7b' :: genEntries ps) ++ ['\x7d']

/-- Adjacent-pairs sortedness of the association list embedding `std::map`
(strictly ascending keys; `std::map` guarantees this invariant). -/
def sortedKeys : List (List Char × Value) → Bool
  | [] => true
  | [_] => true
  | (k, v) :: (k2, v2) :: tl => keyLt k k2 && sortedKeys ((k2, v2) :: tl)

mutual

/-- Trees for which the serialize-then-parse round trip is claimed: `String`
contents and object keys free of `\x22`, integers inside `[0, 2147483647]`
(nonnegative, else the serialized minus sign is not parseable; bounded, else
`std::stoi` overflows), no `Float` nodes (their `%f` serialization is lossy and
double formatting is outside this model), and object entry lists sorted as
`std::map` keeps them. -/
def goodValue : Value → Bool
  | .VInt i => decide (0 ≤ i) && decide (i ≤ 2147483647)
  | .VNull => true
  | .VBool _ => true
  | .VFloat _ => false
  | .VString s => !s.contains '\x22'
  | .VArray l => goodElems l
  | .VObject ps => sortedKeys ps && goodEntries ps

/-- `goodValue` on every element. -/
def goodElems : List Value → Bool
  | [] => true
  | v :: tl => goodValue v && goodElems tl

/-- Keys free of quotes and `goodValue` values. -/
def goodEntries : List (List Char × Value) → Bool
  | [] => true
  | (k, v) :: tl => !k.contains '\x22' && goodValue v && goodEntries tl

end

mutual

/-- Fuel consumed by the mutual parser recursion on the text generated from a
value (an over-approximation used for sufficiency proofs). -/
def cost : Value → Nat
  | .VArray l => 2 + costElems l
  | .VObject ps => 2 + costEntries ps
  | _ => 1

/-- Fuel consumed by `arrayLoop` over the serialized elements. -/
def costElems : List Value → Nat
  | [] => 1
  | v :: tl => 1 + cost v + costElems tl

/-- Fuel consumed by `objectLoop` over the serialized entries. -/
def costEntries : List (List Char × Value) → Nat
  | [] => 1
  | (_, v) :: tl => 1 + cost v + costEntries tl

end

/-- The substring captured by the numeral scan of `parse_numbers` (the
`str.substr(pos, endpos - pos)` after its whitespace skip). -/
def capturedNum (s : List Char) (st : PSt) : List Char :=
  (s.drop (parse_whitespace s st).pos).takeWhile isNumChar

/-- The cursor of `parse_string` after the optional opening-quote consumption. -/
def quotePos (s : List Char) (st : PSt) : Nat :=
  if s.getD st.pos '\x00' = '\x22' then st.pos + 1 else st.pos

/-- Comma-separated join, the specification-side description of the serializer
bodies. -/
def joinComma : List (List Char) → List Char
  | [] => []
  | [x] => x
  | x :: tl => x ++ ',' :: joinComma tl

/-- The serialized member `"key":value` of an object entry. -/
def entryChunk (p : List Char × Value) : List Char :=
  generate_string p.1 ++ ':' :: generate p.2

/-- Nothing remains, or the next character fails `p` (a `takeWhile p` scan
stops here). -/
def headFails (p : Char → Bool) : List Char → Prop
  | [] => True
  | c :: _ => p c = false

section HelperLemmas

theorem charToNat_inj {c d : Char} (h : c.toNat = d.toNat) : c = d :=
  Char.ext (UInt32.ext h)

theorem takeWhile_len_le (p : Char → Bool) : ∀ l : List Char, (l.takeWhile p).length ≤ l.length
  | [] => Nat.le_refl 0
  | c :: t => by
    rw [List.takeWhile_cons]
    cases hp : p c
    · simp
    · simpa using Nat.succ_le_succ (takeWhile_len_le p t)

theorem getD_eq_headD_drop (s : List Char) (d : Char) : ∀ n, s.getD n d = (s.drop n).headD d := by
  induction s with
  | nil => intro n; cases n <;> rfl
  | cons c t ih =>
    intro n
    cases n with
    | zero => rfl
    | succ m => simpa [List.getD] using ih m

theorem getD_append_cons (pre : List Char) (c : Char) (t : List Char) (d : Char) :
    (pre ++ c :: t).getD pre.length d = c := by
  rw [getD_eq_headD_drop, List.drop_left]; rfl

theorem drop_append_cons (pre : List Char) (c : Char) (t : List Char) :
    (pre ++ c :: t).drop (pre.length + 1) = t := by
  have h : pre ++ c :: t = (pre ++ [c]) ++ t := by simp
  have h2 : pre.length + 1 = (pre ++ [c]).length := by simp
  rw [h, h2, List.drop_left]

theorem takeWhile_append_of_all (p : Char → Bool) :
    ∀ l₁ l₂ : List Char, l₁.all p = true → headFails p l₂ → (l₁ ++ l₂).takeWhile p = l₁ := by
  intro l₁
  induction l₁ with
  | nil =>
    intro l₂ _ h2
    cases l₂ with
    | nil => rfl
    | cons c t =>
      simp only [headFails] at h2
      simp [List.takeWhile_cons, h2]
  | cons c t ih =>
    intro l₂ h1 h2
    simp only [List.all_cons, Bool.and_eq_true] at h1
    simp [List.takeWhile_cons, h1.1, ih l₂ h1.2 h2]

theorem len_lt_of_cons (pre : List Char) (c : Char) (t : List Char) :
    pre.length < (pre ++ c :: t).length := by
  simp only [List.length_append, List.length_cons]
  omega

theorem readAt_in_bounds (s : List Char) (i : Nat) (p : Nat) (a b : Bool) (h : i < s.length) :
    readAt s i ⟨p, a, b⟩ = (s.getD i '\x00', ⟨p, a, b⟩) := by
  simp only [readAt]
  rw [decide_eq_false (by omega), decide_eq_false (by omega)]
  simp

theorem ws_nop (pre : List Char) (c : Char) (t : List Char) (a b : Bool)
    (hc : isSpaceChar c = false) :
    parse_whitespace (pre ++ c :: t) ⟨pre.length, a, b⟩ = ⟨pre.length, a, b⟩ := by
  simp only [parse_whitespace]
  rw [List.drop_left, List.takeWhile_cons, hc]
  simp only [Bool.false_eq_true, if_false, List.length_nil, Nat.add_zero]
  rw [readAt_in_bounds _ _ _ _ _ (len_lt_of_cons pre c t)]

theorem readAt_eq (s : List Char) (i p : Nat) (a b : Bool) :
    readAt s i ⟨p, a, b⟩
      = (s.getD i '\x00', ⟨p, a || decide (s.length ≤ i), b || decide (s.length < i)⟩) := rfl

end HelperLemmas

section CursorMonotone

theorem liftExit_snd (r : Res Value × PSt) : (liftExit r).2 = r.2 := by
  obtain ⟨res, st⟩ := r
  cases res <;> rfl

theorem parse_stringV_snd (s : List Char) (st : PSt) :
    (parse_stringV s st).2 = (parse_string s st).2 := by
  simp only [parse_stringV]
  rcases parse_string s st with ⟨res, st3⟩
  cases res <;> rfl

theorem ws_pos_ge (s : List Char) (st : PSt) : st.pos ≤ (parse_whitespace s st).pos := by
  obtain ⟨p, a, b⟩ := st
  simp only [parse_whitespace, readAt]
  exact Nat.le_add_right _ _

theorem null_pos_ge (s : List Char) (st : PSt) : st.pos ≤ (parse_null s st).2.pos := by
  obtain ⟨p, a, b⟩ := st
  simp only [parse_null]
  split <;> simp

theorem true_pos_ge (s : List Char) (st : PSt) : st.pos ≤ (parse_true s st).2.pos := by
  obtain ⟨p, a, b⟩ := st
  simp only [parse_true]
  split <;> simp

theorem false_pos_ge (s : List Char) (st : PSt) : st.pos ≤ (parse_false s st).2.pos := by
  obtain ⟨p, a, b⟩ := st
  simp only [parse_false]
  split <;> simp

theorem skipCommas_pos_ge (s : List Char) (st : PSt) : st.pos ≤ (skipCommas s st).pos := by
  obtain ⟨p, a, b⟩ := st
  simp only [skipCommas]
  exact Nat.le_add_right _ _

theorem numbers_pos_ge (s : List Char) (st : PSt) : st.pos ≤ (parse_numbers s st).2.pos := by
  have h1 := ws_pos_ge s st
  simp only [parse_numbers]
  rcases hw : parse_whitespace s st with ⟨p1, a1, b1⟩
  rw [hw] at h1
  refine le_trans h1 ?_
  split
  · split <;> exact Nat.le_add_right _ _
  · split <;> exact Nat.le_add_right _ _

theorem scan_pos_ge (s : List Char) (p1 : Nat) (a0 b0 : Bool) :
    p1 ≤ (parse_string_scan s p1 a0 b0).2.pos := by
  unfold parse_string_scan
  rw [readAt_eq]
  split
  split <;> first
    | exact Nat.le_refl _
    | exact Nat.le_succ_of_le (Nat.le_add_right _ _)

theorem string_pos_ge (s : List Char) (st : PSt) : st.pos ≤ (parse_string s st).2.pos := by
  obtain ⟨p, a, b⟩ := st
  unfold parse_string
  rw [readAt_eq]
  split
  rename_i c p0 a0 b0 heq
  injection heq with hc hst
  injection hst with hp0 ha0 hb0
  subst hp0
  split
  · exact le_trans (Nat.le_succ p) (scan_pos_ge s (p + 1) a0 b0)
  · exact scan_pos_ge s p a0 b0

theorem valueStep_pos_ge (s : List Char) (rec : PCall → PSt → Res Value × PSt) (st : PSt)
    (hrec : ∀ pc st2, st2.pos ≤ (rec pc st2).2.pos) :
    st.pos ≤ (valueStep s rec st).2.pos := by
  unfold valueStep
  split
  rename_i p1 a1 b1 hw
  have h1 := ws_pos_ge s st
  rw [hw] at h1
  simp only at h1
  refine le_trans h1 ?_
  rw [readAt_eq]
  split
  rename_i c2 st2 heq
  injection heq with hc hst
  subst hc
  have hpos : st2.pos = p1 := by rw [← hst]
  rw [← hpos]
  split
  · rw [liftExit_snd]; exact null_pos_ge s st2
  split
  · rw [liftExit_snd]; exact true_pos_ge s st2
  split
  · rw [liftExit_snd]; exact false_pos_ge s st2
  split
  · rw [liftExit_snd]; exact hrec .array st2
  split
  · rw [liftExit_snd]; exact hrec .object st2
  split
  · rw [liftExit_snd, parse_stringV_snd]; exact string_pos_ge s st2
  split
  · rw [liftExit_snd]; exact numbers_pos_ge s st2
  split
  · exact Nat.le_refl _
  split
  · exact Nat.le_refl _
  exact Nat.le_refl _

theorem arrayStep_pos_ge (s : List Char) (rec : PCall → PSt → Res Value × PSt) (st : PSt)
    (hrec : ∀ pc st2, st2.pos ≤ (rec pc st2).2.pos) :
    st.pos ≤ (arrayStep s rec st).2.pos := by
  obtain ⟨p, a, b⟩ := st
  simp only [arrayStep, readAt]
  split
  · exact le_trans (Nat.le_succ p)
      (hrec (.arrayLoopAcc []) ⟨p + 1, a || decide (s.length ≤ p), b || decide (s.length < p)⟩)
  · exact le_trans (Nat.le_refl p)
      (hrec (.arrayLoopAcc []) ⟨p, a || decide (s.length ≤ p), b || decide (s.length < p)⟩)

theorem arrayLoopStep_pos_ge (s : List Char) (rec : PCall → PSt → Res Value × PSt) (st : PSt)
    (acc : List Value) (hrec : ∀ pc st2, st2.pos ≤ (rec pc st2).2.pos) :
    st.pos ≤ (arrayLoopStep s rec st acc).2.pos := by
  simp only [arrayLoopStep]
  split
  · have h1 := ws_pos_ge s st
    rcases hpv : rec .value (parse_whitespace s st) with ⟨res, st2⟩
    have h2 := hrec .value (parse_whitespace s st)
    rw [hpv] at h2
    simp only at h2
    cases res with
    | ok v =>
      have h3 := ws_pos_ge s st2
      have h4 := skipCommas_pos_ge s (parse_whitespace s st2)
      have h5 := ws_pos_ge s (skipCommas s (parse_whitespace s st2))
      have h6 := hrec (.arrayLoopAcc (acc ++ [v]))
        (parse_whitespace s (skipCommas s (parse_whitespace s st2)))
      simp only
      omega
    | err m => simp only; omega
    | exited m => simp only; omega
  · obtain ⟨p, a, b⟩ := st
    simp only [readAt]
    split <;> simp <;> omega

theorem objectStep_pos_ge (s : List Char) (rec : PCall → PSt → Res Value × PSt) (st : PSt)
    (hrec : ∀ pc st2, st2.pos ≤ (rec pc st2).2.pos) :
    st.pos ≤ (objectStep s rec st).2.pos := by
  obtain ⟨p, a, b⟩ := st
  simp only [objectStep, readAt]
  have hws1 : p + 1 ≤
      (parse_whitespace s
        ⟨p + 1, a || decide (s.length ≤ p), b || decide (s.length < p)⟩).pos :=
    ws_pos_ge s ⟨p + 1, a || decide (s.length ≤ p), b || decide (s.length < p)⟩
  have hws2 : p ≤
      (parse_whitespace s
        ⟨p, a || decide (s.length ≤ p), b || decide (s.length < p)⟩).pos :=
    le_trans (Nat.le_refl p)
      (ws_pos_ge s ⟨p, a || decide (s.length ≤ p), b || decide (s.length < p)⟩)
  split
  · exact le_trans (le_trans (Nat.le_succ p) hws1)
      (hrec (.objectLoopAcc [])
        (parse_whitespace s ⟨p + 1, a || decide (s.length ≤ p), b || decide (s.length < p)⟩))
  · exact le_trans hws2
      (hrec (.objectLoopAcc [])
        (parse_whitespace s ⟨p, a || decide (s.length ≤ p), b || decide (s.length < p)⟩))

theorem objectLoopStep_pos_ge (s : List Char) (rec : PCall → PSt → Res Value × PSt) (st : PSt)
    (acc : List (List Char × Value)) (hrec : ∀ pc st2, st2.pos ≤ (rec pc st2).2.pos) :
    st.pos ≤ (objectLoopStep s rec st acc).2.pos := by
  simp only [objectLoopStep]
  split
  · have h1 := string_pos_ge s st
    rcases hps : parse_string s st with ⟨res, st1⟩
    rw [hps] at h1
    simp only at h1
    cases res with
    | ok k =>
      have h2 := ws_pos_ge s st1
      simp only [readAt]
      have key : ∀ st4 : PSt, (parse_whitespace s st1).pos ≤ st4.pos →
          st.pos ≤ (match rec .value (parse_whitespace s st4) with
            | (.ok v, st6) =>
              rec (.objectLoopAcc (mapInsert k v acc))
                (parse_whitespace s (skipCommas s (parse_whitespace s st6)))
            | (.err m, st6) => ((.err m : Res Value), st6)
            | (.exited m, st6) => ((.exited m : Res Value), st6)).2.pos := by
        intro st4 h4
        have h5 := ws_pos_ge s st4
        rcases hpv : rec .value (parse_whitespace s st4) with ⟨res2, st6⟩
        have h6 := hrec .value (parse_whitespace s st4)
        rw [hpv] at h6
        simp only at h6
        cases res2 with
        | ok v =>
          have h7 := ws_pos_ge s st6
          have h8 := skipCommas_pos_ge s (parse_whitespace s st6)
          have h9 := ws_pos_ge s (skipCommas s (parse_whitespace s st6))
          have h10 := hrec (.objectLoopAcc (mapInsert k v acc))
            (parse_whitespace s (skipCommas s (parse_whitespace s st6)))
          simp only
          omega
        | err m => simp only; omega
        | exited m => simp only; omega
      by_cases hc : s.getD (parse_whitespace s st1).pos '\x00' = ':'
      · rw [if_pos hc]
        exact key _ (Nat.le_succ _)
      · rw [if_neg hc]
        exact key _ (Nat.le_refl _)
    | err m => simp only; omega
    | exited m => simp only; omega
  · obtain ⟨p, a, b⟩ := st
    simp only [readAt]
    split <;> simp <;> omega

theorem parseRun_pos_ge (s : List Char) : ∀ n pc st, st.pos ≤ (parseRun s n pc st).2.pos := by
  intro n
  induction n with
  | zero => intro pc st; exact Nat.le_refl _
  | succ n ih =>
    intro pc st
    cases pc with
    | value => exact valueStep_pos_ge s _ st ih
    | array => exact arrayStep_pos_ge s _ st ih
    | arrayLoopAcc acc => exact arrayLoopStep_pos_ge s _ st acc ih
    | object => exact objectStep_pos_ge s _ st ih
    | objectLoopAcc acc => exact objectLoopStep_pos_ge s _ st acc ih

theorem parse_pos_ge (s : List Char) (fuel : Nat) (st : PSt) : st.pos ≤ (parse s fuel st).2.pos :=
  le_trans (ws_pos_ge s st) (parseRun_pos_ge s fuel .value (parse_whitespace s st))

end CursorMonotone

section ReadBounds

theorem PSt_pos (p : Nat) (a b : Bool) : (⟨p, a, b⟩ : PSt).pos = p := rfl

theorem PSt_atEnd (p : Nat) (a b : Bool) : (⟨p, a, b⟩ : PSt).oobAtEnd = a := rfl

theorem PSt_past (p : Nat) (a b : Bool) : (⟨p, a, b⟩ : PSt).oobPast = b := rfl

theorem getD_lt_of_ne_default (s : List Char) (p : Nat)
    (h : s.getD p '\x00' ≠ '\x00') : p < s.length := by
  by_contra hnot
  exact h (List.getD_eq_default s _ (by omega))

theorem take_len_ge {s : List Char} {p n : Nat} {w : List Char}
    (h : (s.drop p).take n = w) (hw : w.length = n) (hn : 0 < n) : p + n ≤ s.length := by
  have h2 := congrArg List.length h
  rw [List.length_take, List.length_drop, hw] at h2
  have h3 : n ≤ s.length - p := by
    have h4 := min_le_right n (s.length - p)
    rw [h2] at h4
    exact h4
  omega

theorem drop_takeWhile_len (s : List Char) (p : Nat) (q : Char → Bool) :
    ((s.drop p).takeWhile q).length ≤ s.length - p := by
  have h := takeWhile_len_le q (s.drop p)
  rwa [List.length_drop] at h

theorem ws_bound (s : List Char) (st : PSt) (h : st.pos ≤ s.length) :
    (parse_whitespace s st).pos ≤ s.length ∧
      (parse_whitespace s st).oobPast = st.oobPast := by
  obtain ⟨p, a, b⟩ := st
  have hp : p ≤ s.length := h
  have hk := drop_takeWhile_len s p isSpaceChar
  simp only [parse_whitespace, readAt_eq, PSt_pos, PSt_past]
  rw [decide_eq_false (by omega)]
  exact ⟨by omega, by simp⟩

theorem null_bound (s : List Char) (st : PSt) (h : st.pos ≤ s.length) :
    (parse_null s st).2.pos ≤ s.length ∧ (parse_null s st).2.oobPast = st.oobPast := by
  obtain ⟨p, a, b⟩ := st
  simp only [parse_null]
  split
  · rename_i heq
    exact ⟨take_len_ge heq rfl (by omega), rfl⟩
  · exact ⟨h, rfl⟩

theorem true_bound (s : List Char) (st : PSt) (h : st.pos ≤ s.length) :
    (parse_true s st).2.pos ≤ s.length ∧ (parse_true s st).2.oobPast = st.oobPast := by
  obtain ⟨p, a, b⟩ := st
  simp only [parse_true]
  split
  · rename_i heq
    exact ⟨take_len_ge heq rfl (by omega), rfl⟩
  · exact ⟨h, rfl⟩

theorem false_bound (s : List Char) (st : PSt) (h : st.pos ≤ s.length) :
    (parse_false s st).2.pos ≤ s.length ∧ (parse_false s st).2.oobPast = st.oobPast := by
  obtain ⟨p, a, b⟩ := st
  simp only [parse_false]
  split
  · rename_i heq
    exact ⟨take_len_ge heq rfl (by omega), rfl⟩
  · exact ⟨h, rfl⟩

theorem skipCommas_bound (s : List Char) (st : PSt) (h : st.pos ≤ s.length) :
    (skipCommas s st).pos ≤ s.length ∧ (skipCommas s st).oobPast = st.oobPast := by
  obtain ⟨p, a, b⟩ := st
  have hp : p ≤ s.length := h
  have hk := drop_takeWhile_len s p (fun c => c = ',')
  simp only [skipCommas, PSt_pos, PSt_past]
  exact ⟨by omega, by trivial⟩

theorem numbers_bound (s : List Char) (st : PSt) (h : st.pos ≤ s.length) :
    (parse_numbers s st).2.pos ≤ s.length ∧ (parse_numbers s st).2.oobPast = st.oobPast := by
  have hw := ws_bound s st h
  simp only [parse_numbers]
  rcases hws : parse_whitespace s st with ⟨p1, a1, b1⟩
  rw [hws] at hw
  have hw1 : p1 ≤ s.length := hw.1
  have hw2 : b1 = st.oobPast := hw.2
  have hk := drop_takeWhile_len s p1 isNumChar
  split
  · split
    · exact ⟨show p1 + ((s.drop p1).takeWhile isNumChar).length ≤ s.length by omega, hw2⟩
    · exact ⟨show p1 + ((s.drop p1).takeWhile isNumChar).length ≤ s.length by omega, hw2⟩
  · split
    · exact ⟨show p1 + ((s.drop p1).takeWhile isNumChar).length ≤ s.length by omega, hw2⟩
    · exact ⟨show p1 + ((s.drop p1).takeWhile isNumChar).length ≤ s.length by omega, hw2⟩

theorem scan_bound (s : List Char) (p1 : Nat) (a0 b0 : Bool) (hp1 : p1 ≤ s.length) :
    (parse_string_scan s p1 a0 b0).2.pos ≤ s.length ∧
      (parse_string_scan s p1 a0 b0).2.oobPast = b0 := by
  have hk := drop_takeWhile_len s p1 (fun ch => ch ≠ '\x22')
  unfold parse_string_scan
  rw [readAt_eq]
  rw [show decide (s.length < p1 + ((s.drop p1).takeWhile (fun ch => ch ≠ '\x22')).length)
      = false from decide_eq_false (by omega)]
  split
  rename_i c2 p2 a2 b2 heq
  injection heq with hc hst
  injection hst with hpp ha2 hb2
  have hb2v : b2 = b0 := by rw [← hb2]; simp
  subst hc
  split
  · exact ⟨hp1, hb2v⟩
  · rename_i hc2
    rw [ne_eq, not_not] at hc2
    have hlt := getD_lt_of_ne_default s _ (by rw [hc2]; decide)
    refine ⟨?_, hb2v⟩
    show p1 + ((s.drop p1).takeWhile (fun ch => ch ≠ '\x22')).length + 1 ≤ s.length
    omega

theorem string_bound (s : List Char) (st : PSt) (h : st.pos ≤ s.length) :
    (parse_string s st).2.pos ≤ s.length ∧ (parse_string s st).2.oobPast = st.oobPast := by
  obtain ⟨p, a, b⟩ := st
  have hp : p ≤ s.length := h
  unfold parse_string
  rw [readAt_eq]
  rw [show decide (s.length < (⟨p, a, b⟩ : PSt).pos) = false from
    decide_eq_false (by simp only [PSt_pos]; omega)]
  split
  rename_i c p0 a0 b0 heq
  injection heq with hc hst
  injection hst with hp0 ha0 hb0
  subst hp0
  subst hc
  have hb0 : b0 = b := by rw [← hb0]; simp
  split
  · rename_i hcq
    have hlt : p < s.length := getD_lt_of_ne_default s _ (by
      simp only [PSt_pos] at hcq
      rw [hcq]; decide)
    have hsc := scan_bound s (p + 1) a0 b0 (by omega)
    exact ⟨hsc.1, by rw [hsc.2, hb0]⟩
  · have hsc := scan_bound s p a0 b0 hp
    exact ⟨hsc.1, by rw [hsc.2, hb0]⟩

theorem valueStep_bound (s : List Char) (rec : PCall → PSt → Res Value × PSt) (st : PSt)
    (h : st.pos ≤ s.length)
    (hrec : ∀ pc st2, st2.pos ≤ s.length →
      (rec pc st2).2.pos ≤ s.length ∧ (rec pc st2).2.oobPast = st2.oobPast) :
    (valueStep s rec st).2.pos ≤ s.length ∧ (valueStep s rec st).2.oobPast = st.oobPast := by
  have hw := ws_bound s st h
  unfold valueStep
  split
  rename_i p1 a1 b1 hws
  rw [hws] at hw
  have hw1 : p1 ≤ s.length := hw.1
  have hw2 : b1 = st.oobPast := hw.2
  rw [readAt_eq]
  rw [show decide (s.length < p1) = false from decide_eq_false (by omega)]
  split
  rename_i c2 st2 heq
  injection heq with hc hst
  subst hc
  have hpos2 : st2.pos = p1 := by rw [← hst]
  have hpast2 : st2.oobPast = st.oobPast := by rw [← hst]; simp [PSt_past, hw2]
  have hst2 : st2.pos ≤ s.length := by rw [hpos2]; exact hw1
  split
  · rw [liftExit_snd]
    have hb := null_bound s st2 hst2
    exact ⟨hb.1, by rw [hb.2, hpast2]⟩
  split
  · rw [liftExit_snd]
    have hb := true_bound s st2 hst2
    exact ⟨hb.1, by rw [hb.2, hpast2]⟩
  split
  · rw [liftExit_snd]
    have hb := false_bound s st2 hst2
    exact ⟨hb.1, by rw [hb.2, hpast2]⟩
  split
  · rw [liftExit_snd]
    have hb := hrec .array st2 hst2
    exact ⟨hb.1, by rw [hb.2, hpast2]⟩
  split
  · rw [liftExit_snd]
    have hb := hrec .object st2 hst2
    exact ⟨hb.1, by rw [hb.2, hpast2]⟩
  split
  · rw [liftExit_snd, parse_stringV_snd]
    have hb := string_bound s st2 hst2
    exact ⟨hb.1, by rw [hb.2, hpast2]⟩
  split
  · rw [liftExit_snd]
    have hb := numbers_bound s st2 hst2
    exact ⟨hb.1, by rw [hb.2, hpast2]⟩
  split
  · exact ⟨hst2, hpast2⟩
  split
  · exact ⟨hst2, hpast2⟩
  exact ⟨hst2, hpast2⟩

theorem arrayStep_bound (s : List Char) (rec : PCall → PSt → Res Value × PSt) (st : PSt)
    (h : st.pos ≤ s.length)
    (hrec : ∀ pc st2, st2.pos ≤ s.length →
      (rec pc st2).2.pos ≤ s.length ∧ (rec pc st2).2.oobPast = st2.oobPast) :
    (arrayStep s rec st).2.pos ≤ s.length ∧ (arrayStep s rec st).2.oobPast = st.oobPast := by
  obtain ⟨p, a, b⟩ := st
  have hp : p ≤ s.length := h
  simp only [arrayStep, PSt_pos]
  rw [readAt_eq]
  rw [show decide (s.length < p) = false from decide_eq_false (by omega)]
  split
  · rename_i heq
    have hcq : s.getD p '\x00' = '[' := heq
    have hlt : p < s.length := getD_lt_of_ne_default s _ (by rw [hcq]; decide)
    have hr := hrec (.arrayLoopAcc []) ⟨p + 1, a || decide (s.length ≤ p), b || false⟩ (by
      show p + 1 ≤ s.length
      omega)
    exact ⟨hr.1, hr.2.trans (by simp)⟩
  · have hr := hrec (.arrayLoopAcc []) ⟨p, a || decide (s.length ≤ p), b || false⟩ hp
    exact ⟨hr.1, hr.2.trans (by simp)⟩

theorem objectStep_bound (s : List Char) (rec : PCall → PSt → Res Value × PSt) (st : PSt)
    (h : st.pos ≤ s.length)
    (hrec : ∀ pc st2, st2.pos ≤ s.length →
      (rec pc st2).2.pos ≤ s.length ∧ (rec pc st2).2.oobPast = st2.oobPast) :
    (objectStep s rec st).2.pos ≤ s.length ∧ (objectStep s rec st).2.oobPast = st.oobPast := by
  obtain ⟨p, a, b⟩ := st
  have hp : p ≤ s.length := h
  simp only [objectStep, PSt_pos]
  rw [readAt_eq]
  rw [show decide (s.length < p) = false from decide_eq_false (by omega)]
  split
  · rename_i heq
    have hcq : s.getD p '\x00' = '\x7b' := heq
    have hlt : p < s.length := getD_lt_of_ne_default s _ (by rw [hcq]; decide)
    have hwb := ws_bound s ⟨p + 1, a || decide (s.length ≤ p), b || false⟩ (by
      show p + 1 ≤ s.length
      omega)
    have hr := hrec (.objectLoopAcc [])
      (parse_whitespace s ⟨p + 1, a || decide (s.length ≤ p), b || false⟩) hwb.1
    exact ⟨hr.1, hr.2.trans (hwb.2.trans (by simp))⟩
  · have hwb := ws_bound s ⟨p, a || decide (s.length ≤ p), b || false⟩ hp
    have hr := hrec (.objectLoopAcc [])
      (parse_whitespace s ⟨p, a || decide (s.length ≤ p), b || false⟩) hwb.1
    exact ⟨hr.1, hr.2.trans (hwb.2.trans (by simp))⟩

theorem arrayLoopStep_bound (s : List Char) (rec : PCall → PSt → Res Value × PSt) (st : PSt)
    (acc : List Value) (h : st.pos ≤ s.length)
    (hrec : ∀ pc st2, st2.pos ≤ s.length →
      (rec pc st2).2.pos ≤ s.length ∧ (rec pc st2).2.oobPast = st2.oobPast) :
    (arrayLoopStep s rec st acc).2.pos ≤ s.length ∧
      (arrayLoopStep s rec st acc).2.oobPast = st.oobPast := by
  simp only [arrayLoopStep]
  split
  · have hwb := ws_bound s st h
    rcases hpv : rec .value (parse_whitespace s st) with ⟨res, st2⟩
    have h2 := hrec .value (parse_whitespace s st) hwb.1
    rw [hpv] at h2
    have h2a : st2.pos ≤ s.length := h2.1
    have h2b : st2.oobPast = st.oobPast := by
      have h3 := h2.2
      rw [hwb.2] at h3
      exact h3
    cases res with
    | ok v =>
      have h3 := ws_bound s st2 h2a
      have h4 := skipCommas_bound s (parse_whitespace s st2) h3.1
      have h5 := ws_bound s (skipCommas s (parse_whitespace s st2)) h4.1
      have h6 := hrec (.arrayLoopAcc (acc ++ [v]))
        (parse_whitespace s (skipCommas s (parse_whitespace s st2))) h5.1
      exact ⟨h6.1, by rw [h6.2, h5.2, h4.2, h3.2, h2b]⟩
    | err m => exact ⟨h2a, h2b⟩
    | exited m => exact ⟨h2a, h2b⟩
  · obtain ⟨p, a, b⟩ := st
    have hp : p ≤ s.length := h
    simp only [PSt_pos]
    rw [readAt_eq]
    rw [show decide (s.length < p) = false from decide_eq_false (by omega)]
    split
    · exact ⟨hp, by simp⟩
    · rename_i hc2
      have hc3 : s.getD p '\x00' = ']' := by simpa using hc2
      have hlt : p < s.length := getD_lt_of_ne_default s _ (by rw [hc3]; decide)
      refine ⟨?_, by simp⟩
      show p + 1 ≤ s.length
      omega

theorem objectLoopStep_bound (s : List Char) (rec : PCall → PSt → Res Value × PSt) (st : PSt)
    (acc : List (List Char × Value)) (h : st.pos ≤ s.length)
    (hrec : ∀ pc st2, st2.pos ≤ s.length →
      (rec pc st2).2.pos ≤ s.length ∧ (rec pc st2).2.oobPast = st2.oobPast) :
    (objectLoopStep s rec st acc).2.pos ≤ s.length ∧
      (objectLoopStep s rec st acc).2.oobPast = st.oobPast := by
  simp only [objectLoopStep]
  split
  · have hsb := string_bound s st h
    rcases hps : parse_string s st with ⟨res, st1⟩
    rw [hps] at hsb
    have h1a : st1.pos ≤ s.length := hsb.1
    have h1b : st1.oobPast = st.oobPast := hsb.2
    split
    case _ k st1b heq2 =>
      injection heq2 with hres hst1
      subst hres
      subst hst1
      have hw2 := ws_bound s st1 h1a
      rcases hw2eq : parse_whitespace s st1 with ⟨p2, a2, b2⟩
      rw [hw2eq] at hw2
      simp only [PSt_pos, PSt_atEnd, PSt_past]
      have hw2a : p2 ≤ s.length := hw2.1
      have hw2b : b2 = st.oobPast := by
        have h3 : (⟨p2, a2, b2⟩ : PSt).oobPast = st1.oobPast := hw2.2
        rw [PSt_past] at h3
        rw [h3, h1b]
      rw [readAt_eq]
      rw [show decide (s.length < p2) = false from decide_eq_false (by omega)]
      have key : ∀ st4 : PSt, st4.pos ≤ s.length → st4.oobPast = st.oobPast →
          ((match rec .value (parse_whitespace s st4) with
            | (.ok v, st6) =>
              rec (.objectLoopAcc (mapInsert k v acc))
                (parse_whitespace s (skipCommas s (parse_whitespace s st6)))
            | (.err m, st6) => ((.err m : Res Value), st6)
            | (.exited m, st6) => ((.exited m : Res Value), st6)).2.pos ≤ s.length ∧
          (match rec .value (parse_whitespace s st4) with
            | (.ok v, st6) =>
              rec (.objectLoopAcc (mapInsert k v acc))
                (parse_whitespace s (skipCommas s (parse_whitespace s st6)))
            | (.err m, st6) => ((.err m : Res Value), st6)
            | (.exited m, st6) => ((.exited m : Res Value), st6)).2.oobPast = st.oobPast) := by
        intro st4 h4a h4b
        have hwb := ws_bound s st4 h4a
        rcases hpv : rec .value (parse_whitespace s st4) with ⟨res2, st6⟩
        have h6 := hrec .value (parse_whitespace s st4) hwb.1
        rw [hpv] at h6
        have h6a : st6.pos ≤ s.length := h6.1
        have h6b : st6.oobPast = st.oobPast := by
          have h7 := h6.2
          rw [hwb.2, h4b] at h7
          exact h7
        cases res2 with
        | ok v =>
          have h7 := ws_bound s st6 h6a
          have h8 := skipCommas_bound s (parse_whitespace s st6) h7.1
          have h9 := ws_bound s (skipCommas s (parse_whitespace s st6)) h8.1
          have h10 := hrec (.objectLoopAcc (mapInsert k v acc))
            (parse_whitespace s (skipCommas s (parse_whitespace s st6))) h9.1
          exact ⟨h10.1, by rw [h10.2, h9.2, h8.2, h7.2, h6b]⟩
        | err m => exact ⟨h6a, h6b⟩
        | exited m => exact ⟨h6a, h6b⟩
      by_cases hcc : s.getD p2 '\x00' = ':'
      · rw [if_pos hcc]
        have hlt : p2 < s.length := getD_lt_of_ne_default s _ (by rw [hcc]; decide)
        exact key ⟨p2 + 1, a2 || decide (s.length ≤ p2), b2 || false⟩
          (show p2 + 1 ≤ s.length by omega) (by simp [PSt_past, hw2b])
      · rw [if_neg hcc]
        exact key ⟨p2, a2 || decide (s.length ≤ p2), b2 || false⟩ hw2a
          (by simp [PSt_past, hw2b])
    case _ m st1b heq2 =>
      injection heq2 with hres hst1
      subst hst1
      exact ⟨h1a, h1b⟩
    case _ m st1b heq2 =>
      injection heq2 with hres hst1
      subst hst1
      exact ⟨h1a, h1b⟩
  · obtain ⟨p, a, b⟩ := st
    have hp : p ≤ s.length := h
    simp only [PSt_pos]
    rw [readAt_eq]
    rw [show decide (s.length < p) = false from decide_eq_false (by omega)]
    split
    · exact ⟨hp, by simp⟩
    · rename_i hc2
      have hc3 : s.getD p '\x00' = '\x7d' := by simpa using hc2
      have hlt : p < s.length := getD_lt_of_ne_default s _ (by rw [hc3]; decide)
      refine ⟨?_, by simp⟩
      show p + 1 ≤ s.length
      omega

theorem parseRun_bound (s : List Char) :
    ∀ n pc st, st.pos ≤ s.length →
      (parseRun s n pc st).2.pos ≤ s.length ∧ (parseRun s n pc st).2.oobPast = st.oobPast := by
  intro n
  induction n with
  | zero => intro pc st h; exact ⟨h, rfl⟩
  | succ n ih =>
    intro pc st h
    cases pc with
    | value => exact valueStep_bound s _ st h ih
    | array => exact arrayStep_bound s _ st h ih
    | arrayLoopAcc acc => exact arrayLoopStep_bound s _ st acc h ih
    | object => exact objectStep_bound s _ st h ih
    | objectLoopAcc acc => exact objectLoopStep_bound s _ st acc h ih

end ReadBounds


section DigitLemmas

theorem digit_ne {c d : Char} (h : isDigitChar c = true) (hd : isDigitChar d = false) :
    c ≠ d :=
  fun he => by rw [he, hd] at h; exact Bool.noConfusion h

theorem digit_not_space {c : Char} (h : isDigitChar c = true) : isSpaceChar c = false := by
  simp only [isDigitChar, Bool.and_eq_true, decide_eq_true_eq] at h
  simp only [isSpaceChar]
  rw [decide_eq_false (by omega : ¬c.toNat = 32), decide_eq_false (by omega : ¬c.toNat ≤ 13)]
  simp

theorem all_digit_num {l : List Char} (h : l.all isDigitChar = true) :
    l.all isNumChar = true := by
  induction l with
  | nil => rfl
  | cons c t ih =>
    simp only [List.all_cons, Bool.and_eq_true] at h ⊢
    exact ⟨by simp [isNumChar, h.1], ih h.2⟩

theorem all_digit_not_contains {l : List Char} {d : Char} (h : l.all isDigitChar = true)
    (hd : isDigitChar d = false) : l.contains d = false := by
  cases hc : l.contains d
  · rfl
  · have hm : d ∈ l := by simpa using hc
    have h2 := List.all_eq_true.mp h d hm
    rw [hd] at h2
    exact Bool.noConfusion h2

theorem scan_all_digits {l : List Char} (h : l.all isDigitChar = true) :
    l.takeWhile isNumChar = l := by
  have h2 := takeWhile_append_of_all isNumChar l [] (all_digit_num h) trivial
  rwa [List.append_nil] at h2

/-- When the dispatch character of `parse_value` is a digit, the `default`
branch takes the `isdigit` path and the value is read by `parse_numbers`. -/
theorem valueStep_at_digit (s : List Char) (rec : PCall → PSt → Res Value × PSt)
    (p : Nat) (a b : Bool)
    (hws : parse_whitespace s ⟨p, a, b⟩ = ⟨p, a, b⟩)
    (hp : p < s.length) (hc : isDigitChar (s.getD p '\x00') = true) :
    valueStep s rec ⟨p, a, b⟩ = liftExit (parse_numbers s ⟨p, a, b⟩) := by
  unfold valueStep
  split
  rename_i p1 a1 b1 hw
  have h := hws.symm.trans hw
  injection h with e1 e2 e3
  subst e1; subst e2; subst e3
  rw [readAt_in_bounds s p p a b hp]
  show (if s.getD p '\x00' = 'n' then liftExit (parse_null s ⟨p, a, b⟩)
    else if s.getD p '\x00' = 't' then liftExit (parse_true s ⟨p, a, b⟩)
    else if s.getD p '\x00' = 'f' then liftExit (parse_false s ⟨p, a, b⟩)
    else if s.getD p '\x00' = '[' then liftExit (rec .array ⟨p, a, b⟩)
    else if s.getD p '\x00' = '\x7b' then liftExit (rec .object ⟨p, a, b⟩)
    else if s.getD p '\x00' = '\x22' then liftExit (parse_stringV s ⟨p, a, b⟩)
    else if isDigitChar (s.getD p '\x00') then liftExit (parse_numbers s ⟨p, a, b⟩)
    else if s.getD p '\x00' = ']' then
      (.err "find \x27]\x27 without \x27[\x27 infront of".data, ⟨p, a, b⟩)
    else if s.getD p '\x00' = '\x7d' then
      (.err "find \x27\x7d\x27 without \x27\x7b\x27 infront of".data, ⟨p, a, b⟩)
    else (.err ("find ".data ++ [s.getD p '\x00'] ++ " at the beginning, cant parse".data),
      ⟨p, a, b⟩))
    = liftExit (parse_numbers s ⟨p, a, b⟩)
  have hn : s.getD p '\x00' ≠ 'n' := digit_ne hc (by decide)
  have ht : s.getD p '\x00' ≠ 't' := digit_ne hc (by decide)
  have hf : s.getD p '\x00' ≠ 'f' := digit_ne hc (by decide)
  have hlb : s.getD p '\x00' ≠ '[' := digit_ne hc (by decide)
  have hob : s.getD p '\x00' ≠ '\x7b' := digit_ne hc (by decide)
  have hq : s.getD p '\x00' ≠ '\x22' := digit_ne hc (by decide)
  rw [if_neg hn, if_neg ht, if_neg hf, if_neg hlb, if_neg hob, if_neg hq, if_pos hc]

/-- On a state it leaves unchanged by its whitespace skip, whose remaining scan
is a nonempty all-digit capture, `parse_numbers` takes the `stoi` branch and
returns the digits as an `Int` when they fit 32 bits, the conversion error
beyond. -/
theorem parse_numbers_int (s : List Char) (p : Nat) (a b : Bool) (num : List Char)
    (hws : parse_whitespace s ⟨p, a, b⟩ = ⟨p, a, b⟩)
    (hscan : (s.drop p).takeWhile isNumChar = num)
    (hnum : num.all isDigitChar = true) (hne : num ≠ []) :
    parse_numbers s ⟨p, a, b⟩ =
      (if digitsToNat num ≤ 2147483647 then .ok (.VInt (digitsToNat num))
       else .err ("try parsing ".data ++ num ++ " to integer, but failed.".data),
      ⟨p + num.length, a, b⟩) := by
  unfold parse_numbers
  rw [hws]
  show ((if ((s.drop p).takeWhile isNumChar).contains '.'
        || ((s.drop p).takeWhile isNumChar).contains 'e' then
      if stodOverflows (floatVal ((s.drop p).takeWhile isNumChar)) then
        (.err ("try parsing ".data ++ (s.drop p).takeWhile isNumChar
          ++ " to float, but failed.".data),
         ⟨p + ((s.drop p).takeWhile isNumChar).length, a, b⟩)
      else
        (.ok (.VFloat (floatVal ((s.drop p).takeWhile isNumChar))),
         ⟨p + ((s.drop p).takeWhile isNumChar).length, a, b⟩)
    else
      match stoiModel ((s.drop p).takeWhile isNumChar) with
      | some i => (.ok (.VInt i), ⟨p + ((s.drop p).takeWhile isNumChar).length, a, b⟩)
      | none =>
        (.err ("try parsing ".data ++ (s.drop p).takeWhile isNumChar
          ++ " to integer, but failed.".data),
         ⟨p + ((s.drop p).takeWhile isNumChar).length, a, b⟩) : Res Value × PSt)) = _
  rw [hscan]
  rw [all_digit_not_contains hnum (by decide : isDigitChar '.' = false),
      all_digit_not_contains hnum (by decide : isDigitChar 'e' = false)]
  simp only [Bool.or_self, Bool.false_eq_true, if_false]
  unfold stoiModel
  rw [if_neg hne]
  by_cases hle : digitsToNat num ≤ 2147483647
  · rw [if_pos hle, if_pos hle]
  · rw [if_neg hle, if_neg hle]

/-- One step of the packed recursion at the fuel supplied by `json::parser`. -/
theorem parseRun_fuel3 (s : List Char) (st : PSt) :
    parseRun s (3 * s.length + 3) .value st
      = valueStep s (parseRun s (3 * s.length + 2)) st := rfl

/-- The unfolding of `parse_numbers` through the result of its whitespace
skip. -/
theorem parse_numbers_unfold (s : List Char) (st : PSt) (p1 : Nat) (a1 b1 : Bool)
    (hw : parse_whitespace s st = ⟨p1, a1, b1⟩) :
    parse_numbers s st =
      ((if ((s.drop p1).takeWhile isNumChar).contains '.'
          || ((s.drop p1).takeWhile isNumChar).contains 'e' then
        if stodOverflows (floatVal ((s.drop p1).takeWhile isNumChar)) then
          (.err ("try parsing ".data ++ (s.drop p1).takeWhile isNumChar
            ++ " to float, but failed.".data),
           ⟨p1 + ((s.drop p1).takeWhile isNumChar).length, a1, b1⟩)
        else
          (.ok (.VFloat (floatVal ((s.drop p1).takeWhile isNumChar))),
           ⟨p1 + ((s.drop p1).takeWhile isNumChar).length, a1, b1⟩)
      else
        match stoiModel ((s.drop p1).takeWhile isNumChar) with
        | some i => (.ok (.VInt i), ⟨p1 + ((s.drop p1).takeWhile isNumChar).length, a1, b1⟩)
        | none =>
          (.err ("try parsing ".data ++ (s.drop p1).takeWhile isNumChar
            ++ " to integer, but failed.".data),
           ⟨p1 + ((s.drop p1).takeWhile isNumChar).length, a1, b1⟩) : Res Value × PSt)) := by
  unfold parse_numbers
  rw [hw]

/-- A scan over a list all of whose members pass captures the whole list. -/
theorem takeWhile_all {p : Char → Bool} {l : List Char} (h : l.all p = true) :
    l.takeWhile p = l := by
  have h2 := takeWhile_append_of_all p l [] h trivial
  rwa [List.append_nil] at h2

/-- The element loop of the array serializer appends a comma after every
element: on a nonempty list it is the comma-join plus one trailing comma. -/
theorem genElems_eq : ∀ (v : Value) (tl : List Value),
    genElems (v :: tl) = joinComma ((v :: tl).map generate) ++ [','] := by
  intro v tl
  induction tl generalizing v with
  | nil => simp [genElems, joinComma, List.map_cons, List.map_nil]
  | cons w tl2 ih =>
    show generate v ++ ',' :: genElems (w :: tl2) = _
    rw [ih w]
    simp only [List.map_cons, joinComma, List.append_assoc, List.cons_append]

/-- The member loop of the object serializer appends a comma after every
`"key":value` chunk. -/
theorem genEntries_eq : ∀ (p : List Char × Value) (tl : List (List Char × Value)),
    genEntries (p :: tl) = joinComma ((p :: tl).map entryChunk) ++ [','] := by
  intro p tl
  induction tl generalizing p with
  | nil =>
    rcases p with ⟨k, v⟩
    simp [genEntries, joinComma, List.map_cons, List.map_nil, entryChunk]
  | cons q tl2 ih =>
    rcases p with ⟨k, v⟩
    show generate_string k ++ ':' :: generate v ++ ',' :: genEntries (q :: tl2) = _
    rw [ih q]
    simp only [List.map_cons, joinComma, entryChunk, List.append_assoc, List.cons_append]

/-- The array serializer body: open bracket, comma-join, close bracket. -/
theorem generate_array_join : ∀ arr : List Value,
    generate_array arr = '[' :: joinComma (arr.map generate) ++ [']'] := by
  intro arr
  cases arr with
  | nil => rfl
  | cons v tl =>
    unfold generate_array
    rw [genElems_eq v tl]
    rw [if_pos (by simp)]
    have h1 : '[' :: (joinComma ((v :: tl).map generate) ++ [','])
        = ('[' :: joinComma ((v :: tl).map generate)) ++ [','] := rfl
    rw [h1, List.dropLast_concat]

/-- The object serializer body: open brace, comma-join, close brace. -/
theorem generate_object_join : ∀ ps : List (List Char × Value),
    generate_object ps = '\x7b' :: joinComma (ps.map entryChunk) ++ ['\x7d'] := by
  intro ps
  cases ps with
  | nil => rfl
  | cons p tl =>
    unfold generate_object
    rw [genEntries_eq p tl]
    rw [if_pos (by simp)]
    have h1 : '\x7b' :: (joinComma ((p :: tl).map entryChunk) ++ [','])
        = ('\x7b' :: joinComma ((p :: tl).map entryChunk)) ++ [','] := rfl
    rw [h1, List.dropLast_concat]

end DigitLemmas

section KeyOrderLemmas

theorem keyLt_cons_iff (c1 c2 : Char) (t1 t2 : List Char) :
    keyLt (c1 :: t1) (c2 :: t2) = true ↔
      c1.toNat < c2.toNat ∨ (c1.toNat = c2.toNat ∧ keyLt t1 t2 = true) := by
  simp only [keyLt]
  by_cases a : c1.toNat < c2.toNat
  · rw [if_pos a]
    simp [a]
  · rw [if_neg a]
    by_cases b : c2.toNat < c1.toNat
    · rw [if_pos b]
      simp only [Bool.false_eq_true, false_iff]
      rintro (h | ⟨h, _⟩) <;> omega
    · rw [if_neg b]
      constructor
      · intro h
        exact Or.inr ⟨by omega, h⟩
      · rintro (h | ⟨_, h⟩)
        · omega
        · exact h

theorem keyLt_irrefl : ∀ x : List Char, keyLt x x = false
  | [] => rfl
  | c :: t => by
    simp only [keyLt, Nat.lt_irrefl, if_false]
    exact keyLt_irrefl t

theorem keyLt_total : ∀ x y : List Char, keyLt x y = false → x ≠ y → keyLt y x = true
  | [], [], _, hne => absurd rfl hne
  | [], _ :: _, h, _ => by simp [keyLt] at h
  | _ :: _, [], _, _ => by simp [keyLt]
  | c :: t, c2 :: t2, h, hne => by
    simp only [keyLt] at h
    rw [keyLt_cons_iff]
    by_cases h1 : c.toNat < c2.toNat
    · rw [if_pos h1] at h
      exact Bool.noConfusion h
    · rw [if_neg h1] at h
      by_cases h2 : c2.toNat < c.toNat
      · exact Or.inl h2
      · rw [if_neg h2] at h
        have hc : c = c2 := charToNat_inj (by omega)
        subst hc
        refine Or.inr ⟨rfl, keyLt_total t t2 h ?_⟩
        intro he
        exact hne (by rw [he])

theorem keyLt_trans : ∀ x y z : List Char,
    keyLt x y = true → keyLt y z = true → keyLt x z = true
  | [], [], _, h1, _ => by simp [keyLt] at h1
  | [], _ :: _, [], _, h2 => by simp [keyLt] at h2
  | [], _ :: _, _ :: _, _, _ => by simp [keyLt]
  | _ :: _, [], _, h1, _ => by simp [keyLt] at h1
  | _ :: _, _ :: _, [], _, h2 => by simp [keyLt] at h2
  | c1 :: t1, c2 :: t2, c3 :: t3, h1, h2 => by
    rw [keyLt_cons_iff] at h1 h2 ⊢
    rcases h1 with h1 | ⟨h1e, h1t⟩
    · rcases h2 with h2 | ⟨h2e, _⟩
      · exact Or.inl (by omega)
      · exact Or.inl (by omega)
    · rcases h2 with h2 | ⟨h2e, h2t⟩
      · exact Or.inl (by omega)
      · exact Or.inr ⟨by omega, keyLt_trans t1 t2 t3 h1t h2t⟩

/-- Sortedness of the association list does not depend on the stored value of
the head entry. -/
theorem sortedKeys_val (k : List Char) (v v2 : Value) (tl : List (List Char × Value)) :
    sortedKeys ((k, v) :: tl) = sortedKeys ((k, v2) :: tl) := by
  cases tl with
  | nil => rfl
  | cons q tl2 =>
    rcases q with ⟨k3, v3⟩
    simp only [sortedKeys]

theorem mapInsert_sorted (k : List Char) (v : Value) :
    ∀ m, sortedKeys m = true → sortedKeys (mapInsert k v m) = true
  | [], _ => rfl
  | (k2, v2) :: tl, hm => by
    unfold mapInsert
    by_cases h1 : keyLt k k2 = true
    · rw [if_pos h1]
      show (keyLt k k2 && sortedKeys ((k2, v2) :: tl)) = true
      rw [h1, hm]
      rfl
    · rw [if_neg h1]
      by_cases h2 : k = k2
      · rw [if_pos h2]
        subst h2
        rw [sortedKeys_val k v v2 tl]
        exact hm
      · rw [if_neg h2]
        have hlt : keyLt k2 k = true :=
          keyLt_total k k2 (Bool.not_eq_true _ ▸ h1) h2
        have htl : sortedKeys tl = true := by
          cases tl with
          | nil => rfl
          | cons q tl2 =>
            rcases q with ⟨k3, v3⟩
            have hm2 : (keyLt k2 k3 && sortedKeys ((k3, v3) :: tl2)) = true := hm
            exact (Bool.and_eq_true _ _ ▸ hm2).2
        have hrec := mapInsert_sorted k v tl htl
        cases tl with
        | nil =>
          show (keyLt k2 k && sortedKeys ((k, v) :: [])) = true
          rw [hlt]
          rfl
        | cons q tl2 =>
          rcases q with ⟨k3, v3⟩
          have hk23 : keyLt k2 k3 = true := by
            have hm2 : (keyLt k2 k3 && sortedKeys ((k3, v3) :: tl2)) = true := hm
            exact (Bool.and_eq_true _ _ ▸ hm2).1
          unfold mapInsert
          by_cases h3 : keyLt k k3 = true
          · rw [if_pos h3]
            show (keyLt k2 k
              && sortedKeys ((k, v) :: (k3, v3) :: tl2)) = true
            rw [hlt]
            show sortedKeys ((k, v) :: (k3, v3) :: tl2) = true
            show (keyLt k k3 && sortedKeys ((k3, v3) :: tl2)) = true
            rw [h3, htl]
            rfl
          · rw [if_neg h3]
            by_cases h4 : k = k3
            · rw [if_pos h4]
              subst h4
              show (keyLt k2 k && sortedKeys ((k, v) :: tl2)) = true
              rw [hlt, sortedKeys_val k v v3 tl2]
              have htl2 : sortedKeys ((k, v3) :: tl2) = true := htl
              rw [htl2]
              rfl
            · rw [if_neg h4]
              have heq : mapInsert k v ((k3, v3) :: tl2) = (k3, v3) :: mapInsert k v tl2 := by
                simp only [mapInsert]
                rw [if_neg h3, if_neg h4]
              rw [heq] at hrec
              show (keyLt k2 k3 && sortedKeys ((k3, v3) :: mapInsert k v tl2)) = true
              rw [hk23, hrec]
              rfl

/-- In a sorted association list the head key is below every later key. -/
theorem sorted_head_lt (k : List Char) (v : Value) :
    ∀ tl, sortedKeys ((k, v) :: tl) = true → ∀ p ∈ tl, keyLt k p.1 = true
  | [], _, p, hp => absurd hp (List.not_mem_nil p)
  | (k2, v2) :: tl2, hm, p, hp => by
    have hm2 : (keyLt k k2 && sortedKeys ((k2, v2) :: tl2)) = true := hm
    have h12 := (Bool.and_eq_true _ _ ▸ hm2).1
    have hs2 := (Bool.and_eq_true _ _ ▸ hm2).2
    rcases List.mem_cons.mp hp with he | ht
    · rw [he]
      exact h12
    · exact keyLt_trans k k2 p.1 h12 (sorted_head_lt k2 v2 tl2 hs2 p ht)

theorem sorted_keys_nodup : ∀ m, sortedKeys m = true → (m.map Prod.fst).Nodup
  | [], _ => List.nodup_nil
  | (k, v) :: tl, hm => by
    have htl : sortedKeys tl = true := by
      cases tl with
      | nil => rfl
      | cons q tl2 =>
        rcases q with ⟨k3, v3⟩
        have hm2 : (keyLt k k3 && sortedKeys ((k3, v3) :: tl2)) = true := hm
        exact (Bool.and_eq_true _ _ ▸ hm2).2
    refine List.Nodup.cons ?_ (sorted_keys_nodup tl htl)
    intro hk
    rcases List.mem_map.mp hk with ⟨p, hp, hpe⟩
    have := sorted_head_lt k v tl hm p hp
    rw [hpe] at this
    rw [keyLt_irrefl k] at this
    exact Bool.noConfusion this

theorem mapLookup_insert (k : List Char) (v : Value) :
    ∀ m, mapLookup k (mapInsert k v m) = some v
  | [] => by simp [mapInsert, mapLookup]
  | (k2, v2) :: tl => by
    unfold mapInsert
    by_cases h1 : keyLt k k2 = true
    · rw [if_pos h1]
      simp [mapLookup]
    · rw [if_neg h1]
      by_cases h2 : k = k2
      · rw [if_pos h2]
        simp [mapLookup]
      · rw [if_neg h2]
        show mapLookup k ((k2, v2) :: mapInsert k v tl) = some v
        unfold mapLookup
        rw [if_neg h2]
        exact mapLookup_insert k v tl

theorem mapLookup_insert_ne (k k2 : List Char) (v : Value) (hne : k2 ≠ k) :
    ∀ m, mapLookup k2 (mapInsert k v m) = mapLookup k2 m
  | [] => by simp [mapInsert, mapLookup, hne]
  | (k3, v3) :: tl => by
    unfold mapInsert
    by_cases h1 : keyLt k k3 = true
    · rw [if_pos h1]
      show mapLookup k2 ((k, v) :: (k3, v3) :: tl) = _
      unfold mapLookup
      rw [if_neg hne]
      rfl
    · rw [if_neg h1]
      by_cases h2 : k = k3
      · rw [if_pos h2]
        subst h2
        show mapLookup k2 ((k, v) :: tl) = mapLookup k2 ((k, v3) :: tl)
        unfold mapLookup
        rw [if_neg hne, if_neg hne]
      · rw [if_neg h2]
        show mapLookup k2 ((k3, v3) :: mapInsert k v tl) = _
        unfold mapLookup
        by_cases h3 : k2 = k3
        · rw [if_pos h3, if_pos h3]
        · rw [if_neg h3, if_neg h3]
          exact mapLookup_insert_ne k k2 v hne tl

end KeyOrderLemmas

section StringLemmas

/-- Success of `parse_string` on a quote-delimited substring free of quotes. -/
theorem parse_string_ok (pre k rest : List Char) (a b : Bool)
    (hk : k.all (fun ch => ch ≠ '\x22') = true) :
    parse_string (pre ++ '\x22' :: (k ++ '\x22' :: rest)) ⟨pre.length, a, b⟩
      = (.ok k, ⟨pre.length + 1 + k.length + 1, a, b⟩) := by
  unfold parse_string
  simp only [PSt_pos]
  rw [readAt_in_bounds _ _ _ _ _ (len_lt_of_cons pre '\x22' (k ++ '\x22' :: rest)),
    getD_append_cons]
  show parse_string_scan (pre ++ '\x22' :: (k ++ '\x22' :: rest))
      (if ('\x22' : Char) = '\x22' then pre.length + 1 else pre.length) a b = _
  rw [if_pos rfl]
  unfold parse_string_scan
  rw [drop_append_cons pre '\x22' (k ++ '\x22' :: rest),
    takeWhile_append_of_all (fun ch => ch ≠ '\x22') k ('\x22' :: rest) hk
      (by show decide (('\x22' : Char) ≠ '\x22') = false; decide)]
  have hbound : pre.length + 1 + k.length
      < (pre ++ '\x22' :: (k ++ '\x22' :: rest)).length := by
    simp only [List.length_append, List.length_cons]
    omega
  rw [readAt_in_bounds _ _ _ _ _ hbound]
  have hidx : (pre ++ '\x22' :: (k ++ '\x22' :: rest)).getD
      (pre.length + 1 + k.length) '\x00' = '\x22' := by
    have h1 : pre ++ '\x22' :: (k ++ '\x22' :: rest)
        = (pre ++ '\x22' :: k) ++ '\x22' :: rest := by simp
    have h2 : pre.length + 1 + k.length = (pre ++ '\x22' :: k).length := by
      simp only [List.length_append, List.length_cons]
      omega
    rw [h1, h2, getD_append_cons]
  rw [hidx]
  show ((if ('\x22' : Char) ≠ '\x22' then
      (.err "failed to find \x27\x22\x27".data, (⟨pre.length + 1, a, b⟩ : PSt))
    else (.ok k, ⟨pre.length + 1 + k.length + 1, a, b⟩)) : Res (List Char) × PSt)
    = ((.ok k, ⟨pre.length + 1 + k.length + 1, a, b⟩) : Res (List Char) × PSt)
  rw [if_neg (by decide : ¬(('\x22' : Char) ≠ '\x22'))]

/-- Failure of `parse_string` when no closing quote remains. -/
theorem parse_string_err (pre k : List Char) (a b : Bool)
    (hk : k.all (fun ch => ch ≠ '\x22') = true) :
    parse_string (pre ++ '\x22' :: k) ⟨pre.length, a, b⟩
      = (.err "failed to find \x27\x22\x27".data, ⟨pre.length + 1, true, b⟩) := by
  unfold parse_string
  simp only [PSt_pos]
  rw [readAt_in_bounds _ _ _ _ _ (len_lt_of_cons pre '\x22' k), getD_append_cons]
  show parse_string_scan (pre ++ '\x22' :: k)
      (if ('\x22' : Char) = '\x22' then pre.length + 1 else pre.length) a b = _
  rw [if_pos rfl]
  unfold parse_string_scan
  rw [drop_append_cons pre '\x22' k, takeWhile_all hk]
  have hlen : (pre ++ '\x22' :: k).length = pre.length + 1 + k.length := by
    simp only [List.length_append, List.length_cons]
    omega
  rw [readAt_eq]
  rw [List.getD_eq_default _ _ (by omega : (pre ++ '\x22' :: k).length ≤ pre.length + 1 + k.length)]
  rw [decide_eq_true (by omega : (pre ++ '\x22' :: k).length ≤ pre.length + 1 + k.length),
    decide_eq_false (by omega : ¬(pre ++ '\x22' :: k).length < pre.length + 1 + k.length)]
  simp only [Bool.or_true, Bool.or_false]
  show ((if ('\x00' : Char) ≠ '\x22' then
      (.err "failed to find \x27\x22\x27".data, (⟨pre.length + 1, true, b⟩ : PSt))
    else (.ok k, ⟨pre.length + 1 + k.length + 1, true, b⟩)) : Res (List Char) × PSt)
    = ((.err "failed to find \x27\x22\x27".data, ⟨pre.length + 1, true, b⟩)
      : Res (List Char) × PSt)
  rw [if_pos (by decide : (('\x00' : Char) ≠ '\x22'))]

end StringLemmas

section StepLemmas

/-- The whitespace loop stops at once on an in-bounds non-space character. -/
theorem ws_nop2 (s : List Char) (p : Nat) (a b : Bool) (hp : p < s.length)
    (hc : isSpaceChar (s.getD p '\x00') = false) :
    parse_whitespace s ⟨p, a, b⟩ = ⟨p, a, b⟩ := by
  simp only [parse_whitespace]
  have hdrop : s.drop p = s.getD p '\x00' :: s.drop (p + 1) := by
    rw [getD_eq_headD_drop]
    rcases hd : s.drop p with _ | ⟨c, t⟩
    · have := List.length_drop p s
      rw [hd] at this
      simp at this
      omega
    · have ht : s.drop (p + 1) = t := by
        have h1 : (s.drop p).drop 1 = s.drop (p + 1) := by
          rw [List.drop_drop]
        rw [hd] at h1
        simpa using h1.symm
      rw [ht]
      rfl
  rw [hdrop, List.takeWhile_cons, hc]
  simp only [Bool.false_eq_true, if_false, List.length_nil, Nat.add_zero]
  rw [readAt_in_bounds _ _ _ _ _ hp]

/-- A scan that accepts the head but nothing after captures exactly the head. -/
theorem takeWhile_single (p : Char → Bool) (c : Char) (t : List Char)
    (hc : p c = true) (ht : headFails p t) : (c :: t).takeWhile p = [c] := by
  have h := takeWhile_append_of_all p [c] t (by simp [hc]) ht
  simpa using h

/-- A scan whose first character fails captures nothing. -/
theorem takeWhile_none (p : Char → Bool) (t : List Char) (ht : headFails p t) :
    t.takeWhile p = [] := by
  cases t with
  | nil => rfl
  | cons c t2 =>
    have hc : p c = false := ht
    rw [List.takeWhile_cons, hc]
    rfl

/-- The comma loop consumes exactly one comma when a single comma is present. -/
theorem skipCommas_one (s : List Char) (p : Nat) (a b : Bool) (t : List Char)
    (hdrop : s.drop p = ',' :: t) (hhead : headFails (fun c => c = ',') t) :
    skipCommas s ⟨p, a, b⟩ = ⟨p + 1, a, b⟩ := by
  show (⟨p + ((s.drop p).takeWhile (fun c => c = ',')).length, a, b⟩ : PSt) = _
  rw [hdrop, takeWhile_single _ ',' t rfl hhead]
  rfl

/-- The comma loop consumes nothing when no comma is at the cursor. -/
theorem skipCommas_zero (s : List Char) (p : Nat) (a b : Bool)
    (hhead : headFails (fun c => c = ',') (s.drop p)) :
    skipCommas s ⟨p, a, b⟩ = ⟨p, a, b⟩ := by
  show (⟨p + ((s.drop p).takeWhile (fun c => c = ',')).length, a, b⟩ : PSt) = _
  rw [takeWhile_none _ _ hhead]
  rfl

/-- The dispatch of `parse_value` through an in-bounds read on a state fixed by
the whitespace skip. -/
theorem valueStep_eq (s : List Char) (rec : PCall → PSt → Res Value × PSt)
    (p : Nat) (a b : Bool)
    (hws : parse_whitespace s ⟨p, a, b⟩ = ⟨p, a, b⟩) (hp : p < s.length) :
    valueStep s rec ⟨p, a, b⟩ =
      (if s.getD p '\x00' = 'n' then liftExit (parse_null s ⟨p, a, b⟩)
      else if s.getD p '\x00' = 't' then liftExit (parse_true s ⟨p, a, b⟩)
      else if s.getD p '\x00' = 'f' then liftExit (parse_false s ⟨p, a, b⟩)
      else if s.getD p '\x00' = '[' then liftExit (rec .array ⟨p, a, b⟩)
      else if s.getD p '\x00' = '\x7b' then liftExit (rec .object ⟨p, a, b⟩)
      else if s.getD p '\x00' = '\x22' then liftExit (parse_stringV s ⟨p, a, b⟩)
      else if isDigitChar (s.getD p '\x00') then liftExit (parse_numbers s ⟨p, a, b⟩)
      else if s.getD p '\x00' = ']' then
        (.err "find \x27]\x27 without \x27[\x27 infront of".data, ⟨p, a, b⟩)
      else if s.getD p '\x00' = '\x7d' then
        (.err "find \x27\x7d\x27 without \x27\x7b\x27 infront of".data, ⟨p, a, b⟩)
      else (.err ("find ".data ++ [s.getD p '\x00'] ++ " at the beginning, cant parse".data),
        ⟨p, a, b⟩)) := by
  unfold valueStep
  split
  rename_i p1 a1 b1 hw
  have h := hws.symm.trans hw
  injection h with e1 e2 e3
  subst e1; subst e2; subst e3
  rw [readAt_in_bounds s p p a b hp]

/-- `parse_null` on a cursor at a literal `null`. -/
theorem parse_null_at (s : List Char) (p : Nat) (a b : Bool) (rest : List Char)
    (hdrop : s.drop p = "null".data ++ rest) :
    parse_null s ⟨p, a, b⟩ = (.ok .VNull, ⟨p + 4, a, b⟩) := by
  unfold parse_null
  show (if (s.drop p).take 4 = "null".data then
      ((.ok .VNull, ⟨p + 4, a, b⟩) : Res Value × PSt)
    else (.err ((s.drop p).take 4 ++ " is not defined, wanna use \x22null\x22? ".data),
      ⟨p, a, b⟩))
    = ((.ok .VNull, ⟨p + 4, a, b⟩) : Res Value × PSt)
  rw [hdrop, show (4 : Nat) = "null".data.length from rfl, List.take_left, if_pos rfl]

/-- `parse_true` on a cursor at a literal `true`. -/
theorem parse_true_at (s : List Char) (p : Nat) (a b : Bool) (rest : List Char)
    (hdrop : s.drop p = "true".data ++ rest) :
    parse_true s ⟨p, a, b⟩ = (.ok (.VBool true), ⟨p + 4, a, b⟩) := by
  unfold parse_true
  show (if (s.drop p).take 4 = "true".data then
      ((.ok (.VBool true), ⟨p + 4, a, b⟩) : Res Value × PSt)
    else (.err ((s.drop p).take 4 ++ " is not defined, wanna use \x22true\x22? ".data),
      ⟨p, a, b⟩))
    = ((.ok (.VBool true), ⟨p + 4, a, b⟩) : Res Value × PSt)
  rw [hdrop, show (4 : Nat) = "true".data.length from rfl, List.take_left, if_pos rfl]

/-- `parse_false` on a cursor at a literal `false`. -/
theorem parse_false_at (s : List Char) (p : Nat) (a b : Bool) (rest : List Char)
    (hdrop : s.drop p = "false".data ++ rest) :
    parse_false s ⟨p, a, b⟩ = (.ok (.VBool false), ⟨p + 5, a, b⟩) := by
  unfold parse_false
  show (if (s.drop p).take 5 = "false".data then
      ((.ok (.VBool false), ⟨p + 5, a, b⟩) : Res Value × PSt)
    else (.err ((s.drop p).take 5 ++ " is not defined, wanna use \x22false\x22? ".data),
      ⟨p, a, b⟩))
    = ((.ok (.VBool false), ⟨p + 5, a, b⟩) : Res Value × PSt)
  rw [hdrop, show (5 : Nat) = "false".data.length from rfl, List.take_left, if_pos rfl]

/-- `parse_array` consumes a present opening bracket and enters its loop. -/
theorem arrayStep_consume (s : List Char) (rec : PCall → PSt → Res Value × PSt)
    (p : Nat) (a b : Bool) (hp : p < s.length) (hc : s.getD p '\x00' = '[') :
    arrayStep s rec ⟨p, a, b⟩ = rec (.arrayLoopAcc []) ⟨p + 1, a, b⟩ := by
  unfold arrayStep
  simp only [PSt_pos]
  rw [readAt_in_bounds s p p a b hp, hc]
  rfl

/-- `parse_object` consumes a present opening brace, skips whitespace and
enters its loop. -/
theorem objectStep_consume (s : List Char) (rec : PCall → PSt → Res Value × PSt)
    (p : Nat) (a b : Bool) (hp : p < s.length) (hc : s.getD p '\x00' = '\x7b')
    (hw : parse_whitespace s ⟨p + 1, a, b⟩ = ⟨p + 1, a, b⟩) :
    objectStep s rec ⟨p, a, b⟩ = rec (.objectLoopAcc []) ⟨p + 1, a, b⟩ := by
  unfold objectStep
  simp only [PSt_pos]
  rw [readAt_in_bounds s p p a b hp, hc]
  show rec (.objectLoopAcc []) (parse_whitespace s ⟨p + 1, a, b⟩) = _
  rw [hw]

/-- One iteration of the array element loop on a successful element parse. -/
theorem arrayLoopStep_iter (s : List Char) (rec : PCall → PSt → Res Value × PSt)
    (p : Nat) (a b : Bool) (acc : List Value) (v : Value) (st2 : PSt)
    (hp : p < s.length) (hc : s.getD p '\x00' ≠ ']')
    (hrec : rec .value (parse_whitespace s ⟨p, a, b⟩) = (.ok v, st2)) :
    arrayLoopStep s rec ⟨p, a, b⟩ acc
      = rec (.arrayLoopAcc (acc ++ [v]))
          (parse_whitespace s (skipCommas s (parse_whitespace s st2))) := by
  unfold arrayLoopStep
  have hg : (decide ((⟨p, a, b⟩ : PSt).pos < s.length)
      && (s.getD (⟨p, a, b⟩ : PSt).pos '\x00' != ']')) = true := by
    simp only [PSt_pos]
    rw [decide_eq_true hp, Bool.true_and]
    exact bne_iff_ne.mpr hc
  rw [if_pos hg, hrec]

/-- The array loop at the closing bracket returns the accumulated array. -/
theorem arrayLoopStep_exit (s : List Char) (rec : PCall → PSt → Res Value × PSt)
    (p : Nat) (a b : Bool) (acc : List Value)
    (hp : p < s.length) (hc : s.getD p '\x00' = ']') :
    arrayLoopStep s rec ⟨p, a, b⟩ acc = (.ok (.VArray acc), ⟨p + 1, a, b⟩) := by
  unfold arrayLoopStep
  have hg : (decide ((⟨p, a, b⟩ : PSt).pos < s.length)
      && (s.getD (⟨p, a, b⟩ : PSt).pos '\x00' != ']')) = false := by
    simp only [PSt_pos]
    rw [hc]
    simp
  rw [if_neg (by rw [hg]; exact Bool.false_ne_true)]
  simp only [PSt_pos]
  rw [readAt_in_bounds s p p a b hp, hc]
  rfl

/-- One iteration of the object member loop on a successful key and value. -/
theorem objectLoopStep_iter (s : List Char) (rec : PCall → PSt → Res Value × PSt)
    (p : Nat) (a b : Bool) (acc : List (List Char × Value)) (k : List Char)
    (p1 : Nat) (a1 b1 : Bool) (v : Value) (st6 : PSt)
    (hp : p < s.length) (hc : s.getD p '\x00' ≠ '\x7d')
    (hkey : parse_string s ⟨p, a, b⟩ = (.ok k, ⟨p1, a1, b1⟩))
    (hw1 : parse_whitespace s ⟨p1, a1, b1⟩ = ⟨p1, a1, b1⟩)
    (hp1 : p1 < s.length)
    (hrec : rec .value (parse_whitespace s
        (if s.getD p1 '\x00' = ':' then ⟨p1 + 1, a1, b1⟩ else ⟨p1, a1, b1⟩))
      = (.ok v, st6)) :
    objectLoopStep s rec ⟨p, a, b⟩ acc
      = rec (.objectLoopAcc (mapInsert k v acc))
          (parse_whitespace s (skipCommas s (parse_whitespace s st6))) := by
  unfold objectLoopStep
  have hg : (decide ((⟨p, a, b⟩ : PSt).pos < s.length)
      && (s.getD (⟨p, a, b⟩ : PSt).pos '\x00' != '\x7d')) = true := by
    simp only [PSt_pos]
    rw [decide_eq_true hp, Bool.true_and]
    exact bne_iff_ne.mpr hc
  rw [if_pos hg]
  split
  · rename_i k2 st1 heq
    rw [hkey] at heq
    injection heq with he1 he2
    injection he1 with he1
    subst he1
    subst he2
    rw [hw1]
    show (match readAt s p1 ⟨p1, a1, b1⟩ with
      | (c2, ⟨p3, a3, b3⟩) =>
        match rec .value (parse_whitespace s
            (if c2 = ':' then ⟨p3 + 1, a3, b3⟩ else ⟨p3, a3, b3⟩)) with
        | (.ok v2, st6b) =>
          rec (.objectLoopAcc (mapInsert k v2 acc))
            (parse_whitespace s (skipCommas s (parse_whitespace s st6b)))
        | (.err m, st6b) => (.err m, st6b)
        | (.exited m, st6b) => (.exited m, st6b)) = _
    rw [readAt_in_bounds s p1 p1 a1 b1 hp1]
    show (match rec .value (parse_whitespace s
        (if s.getD p1 '\x00' = ':' then ⟨p1 + 1, a1, b1⟩ else ⟨p1, a1, b1⟩)) with
      | (.ok v2, st6b) =>
        rec (.objectLoopAcc (mapInsert k v2 acc))
          (parse_whitespace s (skipCommas s (parse_whitespace s st6b)))
      | (.err m, st6b) => (.err m, st6b)
      | (.exited m, st6b) => (.exited m, st6b)) = _
    rw [hrec]
  · rename_i m2 st1 heq
    rw [hkey] at heq
    exact absurd heq (by intro h; injection h with h1 h2; exact Res.noConfusion h1)
  · rename_i m2 st1 heq
    rw [hkey] at heq
    exact absurd heq (by intro h; injection h with h1 h2; exact Res.noConfusion h1)

/-- The object loop at the closing brace returns the accumulated object. -/
theorem objectLoopStep_exit (s : List Char) (rec : PCall → PSt → Res Value × PSt)
    (p : Nat) (a b : Bool) (acc : List (List Char × Value))
    (hp : p < s.length) (hc : s.getD p '\x00' = '\x7d') :
    objectLoopStep s rec ⟨p, a, b⟩ acc = (.ok (.VObject acc), ⟨p + 1, a, b⟩) := by
  unfold objectLoopStep
  have hg : (decide ((⟨p, a, b⟩ : PSt).pos < s.length)
      && (s.getD (⟨p, a, b⟩ : PSt).pos '\x00' != '\x7d')) = false := by
    simp only [PSt_pos]
    rw [hc]
    simp
  rw [if_neg (by rw [hg]; exact Bool.false_ne_true)]
  simp only [PSt_pos]
  rw [readAt_in_bounds s p p a b hp, hc]
  rfl

/-- One fuel step of the packed recursion, per entry point. -/
theorem parseRun_value_succ (s : List Char) (n : Nat) (st : PSt) :
    parseRun s (n + 1) .value st = valueStep s (parseRun s n) st := rfl

theorem parseRun_array_succ (s : List Char) (n : Nat) (st : PSt) :
    parseRun s (n + 1) .array st = arrayStep s (parseRun s n) st := rfl

theorem parseRun_arrayLoop_succ (s : List Char) (n : Nat) (st : PSt) (acc : List Value) :
    parseRun s (n + 1) (.arrayLoopAcc acc) st = arrayLoopStep s (parseRun s n) st acc := rfl

theorem parseRun_object_succ (s : List Char) (n : Nat) (st : PSt) :
    parseRun s (n + 1) .object st = objectStep s (parseRun s n) st := rfl

theorem parseRun_objectLoop_succ (s : List Char) (n : Nat) (st : PSt)
    (acc : List (List Char × Value)) :
    parseRun s (n + 1) (.objectLoopAcc acc) st = objectLoopStep s (parseRun s n) st acc := rfl

end StepLemmas

section GenLemmas

theorem charOfNat_digit_toNat (m : Nat) (hm : m < 10) :
    (Char.ofNat (48 + m)).toNat = 48 + m := by
  interval_cases m <;> decide

theorem digitsToNat_append_digit (l : List Char) (c : Char) :
    digitsToNat (l ++ [c]) = digitsToNat l * 10 + (c.toNat - 48) := by
  simp [digitsToNat, List.foldl_append]

theorem natToDigitsAux_all_digit : ∀ fuel n, (natToDigitsAux fuel n).all isDigitChar = true
  | 0, _ => rfl
  | fuel + 1, n => by
    unfold natToDigitsAux
    by_cases hn : n = 0
    · rw [if_pos hn]
      rfl
    · rw [if_neg hn, List.all_append, natToDigitsAux_all_digit fuel (n / 10)]
      have hm : n % 10 < 10 := Nat.mod_lt _ (by omega)
      simp only [List.all_cons, List.all_nil, Bool.and_true, Bool.true_and]
      unfold isDigitChar
      rw [charOfNat_digit_toNat _ hm, decide_eq_true (by omega), decide_eq_true (by omega)]
      rfl

theorem natToDigitsAux_correct : ∀ fuel n, n ≤ fuel → digitsToNat (natToDigitsAux fuel n) = n
  | 0, n, h => by
    have hn : n = 0 := by omega
    subst hn
    rfl
  | fuel + 1, n, h => by
    unfold natToDigitsAux
    by_cases hn : n = 0
    · rw [if_pos hn]
      subst hn
      rfl
    · rw [if_neg hn, digitsToNat_append_digit,
        natToDigitsAux_correct fuel (n / 10) (by omega)]
      have hm : n % 10 < 10 := Nat.mod_lt _ (by omega)
      rw [charOfNat_digit_toNat _ hm]
      omega

theorem natToDigits_all_digit (n : Nat) : (natToDigits n).all isDigitChar = true := by
  unfold natToDigits
  by_cases hn : n = 0
  · rw [if_pos hn]
    rfl
  · rw [if_neg hn]
    exact natToDigitsAux_all_digit n n

theorem digitsToNat_natToDigits (n : Nat) : digitsToNat (natToDigits n) = n := by
  unfold natToDigits
  by_cases hn : n = 0
  · rw [if_pos hn]
    subst hn
    rfl
  · rw [if_neg hn]
    exact natToDigitsAux_correct n n (Nat.le_refl n)

theorem natToDigits_ne_nil (n : Nat) : natToDigits n ≠ [] := by
  unfold natToDigits
  by_cases hn : n = 0
  · rw [if_pos hn]
    exact fun h => List.noConfusion h
  · rw [if_neg hn]
    obtain ⟨m, rfl⟩ : ∃ m, n = m + 1 := ⟨n - 1, by omega⟩
    show natToDigitsAux (m + 1) (m + 1) ≠ []
    unfold natToDigitsAux
    rw [if_neg hn]
    intro h
    simp at h

theorem not_contains_all (l : List Char) (c : Char) (h : l.contains c = false) :
    l.all (fun ch => ch ≠ c) = true := by
  rw [List.all_eq_true]
  intro x hx
  simp only [decide_eq_true_eq]
  intro he
  subst he
  have hnm : x ∉ l := by simpa using h
  exact hnm hx

/-- The first character of a serialized good value: never a space, closing
bracket, comma or closing brace. -/
theorem gen_head (v : Value) (hv : goodValue v = true) :
    ∃ c t, generate v = c :: t ∧ isSpaceChar c = false ∧ c ≠ ']' ∧ c ≠ ',' ∧ c ≠ '\x7d' := by
  cases v with
  | VNull => exact ⟨'n', _, rfl, by decide, by decide, by decide, by decide⟩
  | VBool bb =>
    cases bb
    · exact ⟨'f', _, rfl, by decide, by decide, by decide, by decide⟩
    · exact ⟨'t', _, rfl, by decide, by decide, by decide, by decide⟩
  | VInt i =>
    have h0 : 0 ≤ i := by
      have h2 := hv
      simp only [goodValue, Bool.and_eq_true, decide_eq_true_eq] at h2
      exact h2.1
    obtain ⟨c, t, hct⟩ := List.exists_cons_of_ne_nil (natToDigits_ne_nil i.toNat)
    have hd : isDigitChar c = true := by
      have h2 := natToDigits_all_digit i.toNat
      rw [hct] at h2
      simp only [List.all_cons, Bool.and_eq_true] at h2
      exact h2.1
    refine ⟨c, t, ?_, digit_not_space hd, digit_ne hd (by decide), digit_ne hd (by decide),
      digit_ne hd (by decide)⟩
    show intToDigits i = c :: t
    rw [intToDigits, if_neg (by omega : ¬i < 0)]
    exact hct
  | VFloat q => exact absurd hv (by simp [goodValue])
  | VString str => exact ⟨'\x22', _, rfl, by decide, by decide, by decide, by decide⟩
  | VArray l =>
    refine ⟨'[', joinComma (l.map generate) ++ [']'], ?_, by decide, by decide, by decide,
      by decide⟩
    show generate_array l = _
    rw [generate_array_join]
    rfl
  | VObject ps =>
    refine ⟨'\x7b', joinComma (ps.map entryChunk) ++ ['\x7d'], ?_, by decide, by decide,
      by decide, by decide⟩
    show generate_object ps = _
    rw [generate_object_join]
    rfl

theorem keyLt_asymm {x y : List Char} (h : keyLt x y = true) : keyLt y x = false := by
  cases hyx : keyLt y x
  · rfl
  · have h2 := keyLt_trans x y x h hyx
    rw [keyLt_irrefl] at h2
    exact Bool.noConfusion h2

/-- Inserting a key above every present key appends at the end of the map. -/
theorem mapInsert_append (k : List Char) (v : Value) :
    ∀ m, (∀ p ∈ m, keyLt p.1 k = true) → mapInsert k v m = m ++ [(k, v)]
  | [], _ => rfl
  | (k2, v2) :: tl, hlt => by
    have h2 : keyLt k2 k = true := hlt (k2, v2) (List.mem_cons_self _ _)
    unfold mapInsert
    rw [if_neg (by rw [keyLt_asymm h2]; exact Bool.false_ne_true)]
    rw [if_neg (by intro he; rw [he] at h2; rw [keyLt_irrefl] at h2; exact Bool.noConfusion h2)]
    rw [mapInsert_append k v tl (fun p hp => hlt p (List.mem_cons_of_mem _ hp))]
    rfl

theorem cost_pos : ∀ v : Value, 1 ≤ cost v := by
  intro v
  cases v <;> simp [cost] <;> omega

theorem costElems_pos : ∀ l : List Value, 1 ≤ costElems l := by
  intro l
  cases l <;> simp [costElems] <;> omega

theorem costEntries_pos : ∀ ps : List (List Char × Value), 1 ≤ costEntries ps := by
  intro ps
  rcases ps with _ | ⟨⟨k, v⟩, tl⟩ <;> simp [costEntries] <;> omega

mutual

theorem cost_le_gen : ∀ v : Value, goodValue v = true → cost v ≤ 3 * (generate v).length
  | .VNull, _ => by decide
  | .VBool bb, _ => by cases bb <;> decide
  | .VInt i, _ => by
    have hlen : 1 ≤ (intToDigits i).length := by
      unfold intToDigits
      by_cases hi : i < 0
      · rw [if_pos hi]
        simp
      · rw [if_neg hi]
        obtain ⟨c, t, hct⟩ := List.exists_cons_of_ne_nil (natToDigits_ne_nil i.toNat)
        rw [hct]
        simp
    show cost (.VInt i) ≤ 3 * (intToDigits i).length
    have hc : cost (.VInt i) = 1 := rfl
    omega
  | .VFloat q, hv => absurd hv (by simp [goodValue])
  | .VString str, _ => by
    show cost (.VString str) ≤ 3 * (generate_string str).length
    have hc : cost (.VString str) = 1 := rfl
    have hlen : (generate_string str).length = str.length + 2 := by
      simp [generate_string]
    omega
  | .VArray l, hv => by
    have hl : goodElems l = true := hv
    have he := costElems_le l hl
    have hc : cost (.VArray l) = 2 + costElems l := rfl
    have hlen : (generate (.VArray l)).length
        = (joinComma (l.map generate)).length + 2 := by
      show (generate_array l).length = _
      rw [generate_array_join]
      simp
    omega
  | .VObject ps, hv => by
    have hp : goodEntries ps = true := by
      have h2 : (sortedKeys ps && goodEntries ps) = true := hv
      exact (Bool.and_eq_true _ _ ▸ h2).2
    have he := costEntries_le ps hp
    have hc : cost (.VObject ps) = 2 + costEntries ps := rfl
    have hlen : (generate (.VObject ps)).length
        = (joinComma (ps.map entryChunk)).length + 2 := by
      show (generate_object ps).length = _
      rw [generate_object_join]
      simp
    omega

theorem costElems_le : ∀ l : List Value, goodElems l = true →
    costElems l ≤ 3 * (joinComma (l.map generate)).length + 2
  | [], _ => by decide
  | v :: tl, hl => by
    have hv : goodValue v = true := by
      have h2 : (goodValue v && goodElems tl) = true := hl
      exact (Bool.and_eq_true _ _ ▸ h2).1
    have htl : goodElems tl = true := by
      have h2 : (goodValue v && goodElems tl) = true := hl
      exact (Bool.and_eq_true _ _ ▸ h2).2
    have hcv := cost_le_gen v hv
    have hc : costElems (v :: tl) = 1 + cost v + costElems tl := rfl
    cases tl with
    | nil =>
      have hj : joinComma ((v :: []).map generate) = generate v := rfl
      have hct : costElems ([] : List Value) = 1 := rfl
      rw [hj]
      omega
    | cons w tl2 =>
      have hrec := costElems_le (w :: tl2) htl
      have hj : joinComma ((v :: w :: tl2).map generate)
          = generate v ++ ',' :: joinComma ((w :: tl2).map generate) := rfl
      rw [hj]
      simp only [List.length_append, List.length_cons]
      omega

theorem costEntries_le : ∀ ps : List (List Char × Value), goodEntries ps = true →
    costEntries ps ≤ 3 * (joinComma (ps.map entryChunk)).length + 2
  | [], _ => by decide
  | (k, v) :: tl, hl => by
    have hv : goodValue v = true := by
      have h2 : (!k.contains '\x22' && goodValue v && goodEntries tl) = true := hl
      have h3 := Bool.and_eq_true _ _ ▸ h2
      exact (Bool.and_eq_true _ _ ▸ h3.1).2
    have htl : goodEntries tl = true := by
      have h2 : (!k.contains '\x22' && goodValue v && goodEntries tl) = true := hl
      exact (Bool.and_eq_true _ _ ▸ h2).2
    have hcv := cost_le_gen v hv
    have hc : costEntries ((k, v) :: tl) = 1 + cost v + costEntries tl := rfl
    have hchunk : (entryChunk (k, v)).length = k.length + 3 + (generate v).length := by
      simp [entryChunk, generate_string]
      omega
    cases tl with
    | nil =>
      have hj : joinComma (((k, v) :: []).map entryChunk) = entryChunk (k, v) := rfl
      have hct : costEntries ([] : List (List Char × Value)) = 1 := rfl
      rw [hj]
      omega
    | cons q tl2 =>
      have hrec := costEntries_le (q :: tl2) htl
      have hj : joinComma (((k, v) :: q :: tl2).map entryChunk)
          = entryChunk (k, v) ++ ',' :: joinComma ((q :: tl2).map entryChunk) := rfl
      rw [hj]
      simp only [List.length_append, List.length_cons]
      omega

end

/-- A nonempty comma-join begins with its first chunk. -/
theorem joinComma_cons (x : List Char) (xs : List (List Char)) :
    ∃ T, joinComma (x :: xs) = x ++ T := by
  cases xs with
  | nil => exact ⟨[], by simp [joinComma]⟩
  | cons y ys => exact ⟨',' :: joinComma (y :: ys), rfl⟩

/-- Sortedness of the tail of a sorted association list. -/
theorem sortedKeys_tail (e : List Char × Value) (tl : List (List Char × Value))
    (h : sortedKeys (e :: tl) = true) : sortedKeys tl = true := by
  rcases e with ⟨k, v⟩
  cases tl with
  | nil => rfl
  | cons q tl2 =>
    rcases q with ⟨k3, v3⟩
    have h2 : (keyLt k k3 && sortedKeys ((k3, v3) :: tl2)) = true := h
    exact (Bool.and_eq_true _ _ ▸ h2).2

end GenLemmas


set_option maxHeartbeats 2000000 in
theorem roundtrip_run : ∀ n : Nat,
    (∀ (v : Value) (pre rest : List Char) (a b : Bool),
      goodValue v = true → cost v ≤ n → headFails isNumChar rest →
      parseRun (pre ++ (generate v ++ rest)) n .value ⟨pre.length, a, b⟩
        = (.ok v, ⟨pre.length + (generate v).length, a, b⟩)) ∧
    (∀ (l : List Value) (acc : List Value) (pre rest : List Char) (a b : Bool),
      goodElems l = true → costElems l ≤ n →
      parseRun (pre ++ (joinComma (l.map generate) ++ ']' :: rest)) n (.arrayLoopAcc acc)
          ⟨pre.length, a, b⟩
        = (.ok (.VArray (acc ++ l)),
           ⟨pre.length + (joinComma (l.map generate)).length + 1, a, b⟩)) ∧
    (∀ (ps : List (List Char × Value)) (acc : List (List Char × Value))
        (pre rest : List Char) (a b : Bool),
      goodEntries ps = true → sortedKeys ps = true → costEntries ps ≤ n →
      (∀ p ∈ acc, ∀ q ∈ ps, keyLt p.1 q.1 = true) →
      parseRun (pre ++ (joinComma (ps.map entryChunk) ++ '\x7d' :: rest)) n
          (.objectLoopAcc acc) ⟨pre.length, a, b⟩
        = (.ok (.VObject (acc ++ ps)),
           ⟨pre.length + (joinComma (ps.map entryChunk)).length + 1, a, b⟩)) := by
  intro n
  induction n using Nat.strong_induction_on with
  | _ n ih =>
  refine ⟨?_, ?_, ?_⟩
  · -- parse_value on a generated good value
    intro v pre rest a b hv hcost hrest
    obtain ⟨n1, rfl⟩ : ∃ n1, n = n1 + 1 := ⟨n - 1, by have := cost_pos v; omega⟩
    rw [parseRun_value_succ]
    cases v with
    | VNull =>
      have hgd : (pre ++ (generate .VNull ++ rest)).getD pre.length '\x00' = 'n' :=
        getD_append_cons pre 'n' ("ull".data ++ rest) '\x00'
      have hlt : pre.length < (pre ++ (generate .VNull ++ rest)).length :=
        len_lt_of_cons pre 'n' ("ull".data ++ rest)
      have hws := ws_nop2 _ pre.length a b hlt (by rw [hgd]; decide)
      rw [valueStep_eq _ _ _ _ _ hws hlt, hgd, if_pos rfl]
      have hdrop : (pre ++ (generate .VNull ++ rest)).drop pre.length = "null".data ++ rest :=
        List.drop_left pre _
      rw [parse_null_at _ _ _ _ _ hdrop]
      rfl
    | VBool bb =>
      cases bb
      · have hgd : (pre ++ (generate (.VBool false) ++ rest)).getD pre.length '\x00' = 'f' :=
          getD_append_cons pre 'f' ("alse".data ++ rest) '\x00'
        have hlt : pre.length < (pre ++ (generate (.VBool false) ++ rest)).length :=
          len_lt_of_cons pre 'f' ("alse".data ++ rest)
        have hws := ws_nop2 _ pre.length a b hlt (by rw [hgd]; decide)
        rw [valueStep_eq _ _ _ _ _ hws hlt, hgd]
        rw [if_neg (by decide), if_neg (by decide), if_pos rfl]
        have hdrop : (pre ++ (generate (.VBool false) ++ rest)).drop pre.length
            = "false".data ++ rest := List.drop_left pre _
        rw [parse_false_at _ _ _ _ _ hdrop]
        rfl
      · have hgd : (pre ++ (generate (.VBool true) ++ rest)).getD pre.length '\x00' = 't' :=
          getD_append_cons pre 't' ("rue".data ++ rest) '\x00'
        have hlt : pre.length < (pre ++ (generate (.VBool true) ++ rest)).length :=
          len_lt_of_cons pre 't' ("rue".data ++ rest)
        have hws := ws_nop2 _ pre.length a b hlt (by rw [hgd]; decide)
        rw [valueStep_eq _ _ _ _ _ hws hlt, hgd]
        rw [if_neg (by decide), if_pos rfl]
        have hdrop : (pre ++ (generate (.VBool true) ++ rest)).drop pre.length
            = "true".data ++ rest := List.drop_left pre _
        rw [parse_true_at _ _ _ _ _ hdrop]
        rfl
    | VInt i =>
      have h0i : 0 ≤ i ∧ i ≤ 2147483647 := by
        have h2 := hv
        simp only [goodValue, Bool.and_eq_true, decide_eq_true_eq] at h2
        exact h2
      have hgen : generate (.VInt i) = natToDigits i.toNat := by
        show intToDigits i = _
        rw [intToDigits, if_neg (by omega : ¬i < 0)]
      obtain ⟨c, t, hct⟩ := List.exists_cons_of_ne_nil (natToDigits_ne_nil i.toNat)
      have hall : (natToDigits i.toNat).all isDigitChar = true := natToDigits_all_digit _
      have hd : isDigitChar c = true := by
        have h2 := natToDigits_all_digit i.toNat
        rw [hct] at h2
        simp only [List.all_cons, Bool.and_eq_true] at h2
        exact h2.1
      have hgd : (pre ++ (generate (.VInt i) ++ rest)).getD pre.length '\x00' = c := by
        rw [hgen, hct]
        exact getD_append_cons pre c (t ++ rest) '\x00'
      have hlt : pre.length < (pre ++ (generate (.VInt i) ++ rest)).length := by
        rw [hgen, hct]
        exact len_lt_of_cons pre c (t ++ rest)
      have hws := ws_nop2 _ pre.length a b hlt (by rw [hgd]; exact digit_not_space hd)
      rw [valueStep_eq _ _ _ _ _ hws hlt, hgd]
      rw [if_neg (digit_ne hd (by decide)), if_neg (digit_ne hd (by decide)),
        if_neg (digit_ne hd (by decide)), if_neg (digit_ne hd (by decide)),
        if_neg (digit_ne hd (by decide)), if_neg (digit_ne hd (by decide)), if_pos hd]
      have hscan : ((pre ++ (generate (.VInt i) ++ rest)).drop pre.length).takeWhile isNumChar
          = natToDigits i.toNat := by
        have hdrop : (pre ++ (generate (.VInt i) ++ rest)).drop pre.length
            = natToDigits i.toNat ++ rest := by
          rw [hgen]
          exact List.drop_left pre _
        rw [hdrop]
        exact takeWhile_append_of_all _ _ _ (all_digit_num hall) hrest
      rw [parse_numbers_int _ pre.length a b (natToDigits i.toNat) hws hscan hall
        (natToDigits_ne_nil _)]
      rw [digitsToNat_natToDigits]
      rw [if_pos (by omega : i.toNat ≤ 2147483647)]
      have hi : (i.toNat : Int) = i := Int.toNat_of_nonneg h0i.1
      rw [hgen]
      show ((.ok (.VInt (i.toNat : Int)),
        ⟨pre.length + (natToDigits i.toNat).length, a, b⟩) : Res Value × PSt) = _
      rw [hi]
    | VFloat q => exact absurd hv (by simp [goodValue])
    | VString str =>
      have hk : str.all (fun ch => ch ≠ '\x22') = true := by
        have h2 := hv
        simp only [goodValue] at h2
        refine not_contains_all _ _ ?_
        cases hc2 : str.contains '\x22'
        · rfl
        · rw [hc2] at h2
          exact Bool.noConfusion h2
      have hshape : pre ++ (generate (.VString str) ++ rest)
          = pre ++ '\x22' :: (str ++ '\x22' :: rest) := by
        show pre ++ (generate_string str ++ rest) = _
        simp [generate_string, List.append_assoc]
      rw [hshape]
      have hgd : (pre ++ '\x22' :: (str ++ '\x22' :: rest)).getD pre.length '\x00' = '\x22' :=
        getD_append_cons _ _ _ _
      have hlt : pre.length < (pre ++ '\x22' :: (str ++ '\x22' :: rest)).length :=
        len_lt_of_cons _ _ _
      have hws := ws_nop2 _ pre.length a b hlt (by rw [hgd]; decide)
      rw [valueStep_eq _ _ _ _ _ hws hlt, hgd]
      rw [if_neg (by decide), if_neg (by decide), if_neg (by decide), if_neg (by decide),
        if_neg (by decide), if_pos rfl]
      unfold parse_stringV
      rw [parse_string_ok pre str rest a b hk]
      have hlen : pre.length + 1 + str.length + 1
          = pre.length + (generate (.VString str)).length := by
        show _ = pre.length + (generate_string str).length
        simp only [generate_string, List.length_cons, List.length_append, List.length_nil]
        omega
      show ((.ok (.VString str), ⟨pre.length + 1 + str.length + 1, a, b⟩) : Res Value × PSt) = _
      rw [hlen]
    | VArray l =>
      have hl : goodElems l = true := hv
      have hgenA : generate (.VArray l) = '[' :: joinComma (l.map generate) ++ [']'] := by
        show generate_array l = _
        exact generate_array_join l
      have hshape : pre ++ (generate (.VArray l) ++ rest)
          = pre ++ '[' :: (joinComma (l.map generate) ++ ']' :: rest) := by
        rw [hgenA]
        simp [List.append_assoc]
      rw [hshape]
      have hgd : (pre ++ '[' :: (joinComma (l.map generate) ++ ']' :: rest)).getD
          pre.length '\x00' = '[' := getD_append_cons _ _ _ _
      have hlt : pre.length
          < (pre ++ '[' :: (joinComma (l.map generate) ++ ']' :: rest)).length :=
        len_lt_of_cons _ _ _
      have hws := ws_nop2 _ pre.length a b hlt (by rw [hgd]; decide)
      rw [valueStep_eq _ _ _ _ _ hws hlt, hgd]
      rw [if_neg (by decide), if_neg (by decide), if_neg (by decide), if_pos rfl]
      have hcostA : cost (.VArray l) = 2 + costElems l := rfl
      obtain ⟨n2, rfl⟩ : ∃ n2, n1 = n2 + 1 := ⟨n1 - 1, by have := costElems_pos l; omega⟩
      rw [parseRun_array_succ]
      rw [arrayStep_consume _ _ pre.length a b hlt hgd]
      have hpre : pre.length + 1 = (pre ++ ['[']).length := by simp
      have hs2 : pre ++ '[' :: (joinComma (l.map generate) ++ ']' :: rest)
          = (pre ++ ['[']) ++ (joinComma (l.map generate) ++ ']' :: rest) := by
        simp
      rw [hpre, hs2]
      rw [(ih n2 (by omega)).2.1 l [] (pre ++ ['[']) rest a b hl (by omega)]
      have hlen : (pre ++ ['[']).length + (joinComma (l.map generate)).length + 1
          = pre.length + (generate (.VArray l)).length := by
        rw [hgenA]
        simp only [List.length_append, List.length_cons, List.length_nil]
        omega
      show ((.ok (.VArray ([] ++ l)),
        ⟨(pre ++ ['[']).length + (joinComma (l.map generate)).length + 1, a, b⟩)
          : Res Value × PSt) = _
      rw [hlen]
      rfl
    | VObject ps =>
      have hsg : sortedKeys ps = true ∧ goodEntries ps = true := by
        have h2 : (sortedKeys ps && goodEntries ps) = true := hv
        exact Bool.and_eq_true _ _ ▸ h2
      have hgenO : generate (.VObject ps) = '\x7b' :: joinComma (ps.map entryChunk) ++ ['\x7d'] := by
        show generate_object ps = _
        exact generate_object_join ps
      have hshape : pre ++ (generate (.VObject ps) ++ rest)
          = pre ++ '\x7b' :: (joinComma (ps.map entryChunk) ++ '\x7d' :: rest) := by
        rw [hgenO]
        simp [List.append_assoc]
      rw [hshape]
      have hgd : (pre ++ '\x7b' :: (joinComma (ps.map entryChunk) ++ '\x7d' :: rest)).getD
          pre.length '\x00' = '\x7b' := getD_append_cons _ _ _ _
      have hlt : pre.length
          < (pre ++ '\x7b' :: (joinComma (ps.map entryChunk) ++ '\x7d' :: rest)).length :=
        len_lt_of_cons _ _ _
      have hws := ws_nop2 _ pre.length a b hlt (by rw [hgd]; decide)
      rw [valueStep_eq _ _ _ _ _ hws hlt, hgd]
      rw [if_neg (by decide), if_neg (by decide), if_neg (by decide), if_neg (by decide),
        if_pos rfl]
      have hcostO : cost (.VObject ps) = 2 + costEntries ps := rfl
      obtain ⟨n2, rfl⟩ : ∃ n2, n1 = n2 + 1 := ⟨n1 - 1, by have := costEntries_pos ps; omega⟩
      rw [parseRun_object_succ]
      have hpre : pre.length + 1 = (pre ++ ['\x7b']).length := by simp
      have hs2 : pre ++ '\x7b' :: (joinComma (ps.map entryChunk) ++ '\x7d' :: rest)
          = (pre ++ ['\x7b']) ++ (joinComma (ps.map entryChunk) ++ '\x7d' :: rest) := by
        simp
      obtain ⟨c2, t2, hX, hc2sp, hc2c⟩ : ∃ c2 t2,
          joinComma (ps.map entryChunk) ++ '\x7d' :: rest = c2 :: t2 ∧
          isSpaceChar c2 = false ∧ c2 ≠ ',' := by
        cases ps with
        | nil => exact ⟨'\x7d', rest, rfl, by decide, by decide⟩
        | cons e tl =>
          obtain ⟨T, hT⟩ := joinComma_cons (entryChunk e) (tl.map entryChunk)
          refine ⟨'\x22', e.1 ++ '\x22' :: ':' :: (generate e.2 ++ (T ++ '\x7d' :: rest)),
            ?_, by decide, by decide⟩
          rw [List.map_cons, hT]
          simp [entryChunk, generate_string, List.append_assoc]
      have hgd3 : (pre ++ '\x7b' :: (joinComma (ps.map entryChunk) ++ '\x7d' :: rest)).getD
          (pre.length + 1) '\x00' = c2 := by
        rw [hs2, hpre, hX]
        exact getD_append_cons _ _ _ _
      have hlt3 : pre.length + 1
          < (pre ++ '\x7b' :: (joinComma (ps.map entryChunk) ++ '\x7d' :: rest)).length := by
        rw [hs2, hpre, hX]
        exact len_lt_of_cons _ _ _
      have hw3 := ws_nop2 _ (pre.length + 1) a b hlt3 (by rw [hgd3]; exact hc2sp)
      rw [objectStep_consume _ _ pre.length a b hlt hgd hw3]
      rw [hpre, hs2]
      rw [(ih n2 (by omega)).2.2 ps [] (pre ++ ['\x7b']) rest a b hsg.2 hsg.1 (by omega)
        (by intro p hp; exact absurd hp (List.not_mem_nil p))]
      have hlen : (pre ++ ['\x7b']).length + (joinComma (ps.map entryChunk)).length + 1
          = pre.length + (generate (.VObject ps)).length := by
        rw [hgenO]
        simp only [List.length_append, List.length_cons, List.length_nil]
        omega
      show ((.ok (.VObject ([] ++ ps)),
        ⟨(pre ++ ['\x7b']).length + (joinComma (ps.map entryChunk)).length + 1, a, b⟩)
          : Res Value × PSt) = _
      rw [hlen]
      rfl
  · -- the array element loop
    intro l acc pre rest a b hl hcost
    obtain ⟨n1, rfl⟩ : ∃ n1, n = n1 + 1 := ⟨n - 1, by have := costElems_pos l; omega⟩
    rw [parseRun_arrayLoop_succ]
    cases l with
    | nil =>
      have hgd : (pre ++ (joinComma (([] : List Value).map generate) ++ ']' :: rest)).getD
          pre.length '\x00' = ']' := getD_append_cons pre ']' rest '\x00'
      have hlt : pre.length
          < (pre ++ (joinComma (([] : List Value).map generate) ++ ']' :: rest)).length :=
        len_lt_of_cons pre ']' rest
      rw [arrayLoopStep_exit _ _ pre.length a b acc hlt hgd]
      rw [List.append_nil]
      rfl
    | cons v tl =>
      have hvl : goodValue v = true ∧ goodElems tl = true := by
        have h2 : (goodValue v && goodElems tl) = true := hl
        exact Bool.and_eq_true _ _ ▸ h2
      obtain ⟨cv, tv, hct, hcsp, hcne1, hcne2, hcne3⟩ := gen_head v hvl.1
      have hcostl : costElems (v :: tl) = 1 + cost v + costElems tl := rfl
      have hcp1 := cost_pos v
      cases tl with
      | nil =>
        have hcp2 : costElems ([] : List Value) = 1 := rfl
        have hJ : joinComma ((v :: ([] : List Value)).map generate) = generate v := rfl
        rw [hJ]
        have hgd : (pre ++ (generate v ++ ']' :: rest)).getD pre.length '\x00' = cv := by
          rw [hct]
          exact getD_append_cons pre cv (tv ++ ']' :: rest) '\x00'
        have hlt : pre.length < (pre ++ (generate v ++ ']' :: rest)).length := by
          rw [hct]
          exact len_lt_of_cons pre cv (tv ++ ']' :: rest)
        have hws := ws_nop2 _ pre.length a b hlt (by rw [hgd]; exact hcsp)
        have hA := (ih n1 (by omega)).1 v pre (']' :: rest) a b hvl.1 (by omega)
          (show isNumChar ']' = false by decide)
        have hrec : parseRun (pre ++ (generate v ++ ']' :: rest)) n1 .value
            (parse_whitespace (pre ++ (generate v ++ ']' :: rest)) ⟨pre.length, a, b⟩)
            = (.ok v, ⟨pre.length + (generate v).length, a, b⟩) := by
          rw [hws]
          exact hA
        rw [arrayLoopStep_iter _ _ pre.length a b acc v _ hlt
          (by rw [hgd]; exact hcne1) hrec]
        have hgroup : pre ++ (generate v ++ ']' :: rest)
            = (pre ++ generate v) ++ ']' :: rest := by
          simp [List.append_assoc]
        have hlen2 : pre.length + (generate v).length = (pre ++ generate v).length := by
          simp
        have hgd4 : (pre ++ (generate v ++ ']' :: rest)).getD
            (pre.length + (generate v).length) '\x00' = ']' := by
          rw [hgroup, hlen2]
          exact getD_append_cons _ _ _ _
        have hlt4 : pre.length + (generate v).length
            < (pre ++ (generate v ++ ']' :: rest)).length := by
          rw [hgroup, hlen2]
          exact len_lt_of_cons _ _ _
        have hws4 := ws_nop2 _ (pre.length + (generate v).length) a b hlt4
          (by rw [hgd4]; decide)
        have hdrop4 : (pre ++ (generate v ++ ']' :: rest)).drop
            (pre.length + (generate v).length) = ']' :: rest := by
          rw [hgroup, hlen2]
          exact List.drop_left _ _
        rw [hws4, skipCommas_zero _ (pre.length + (generate v).length) a b
          (by rw [hdrop4]; exact (show decide ((']' : Char) = ',') = false by decide)), hws4]
        rw [hlen2, hgroup]
        have ihB := (ih n1 (by omega)).2.1 [] (acc ++ [v]) (pre ++ generate v) rest a b
          rfl (by omega)
        simp only [List.map_nil, joinComma, List.nil_append, List.length_nil,
          Nat.add_zero, List.append_nil] at ihB
        rw [ihB]
      | cons w tl2 =>
        have hw2 : goodValue w = true ∧ goodElems tl2 = true := by
          have h2 : (goodValue w && goodElems tl2) = true := hvl.2
          exact Bool.and_eq_true _ _ ▸ h2
        have hcp2 := costElems_pos (w :: tl2)
        have hJ : joinComma ((v :: w :: tl2).map generate)
            = generate v ++ ',' :: joinComma ((w :: tl2).map generate) := rfl
        rw [hJ]
        have hshape : pre ++ ((generate v ++ ',' :: joinComma ((w :: tl2).map generate))
              ++ ']' :: rest)
            = pre ++ (generate v
              ++ ',' :: (joinComma ((w :: tl2).map generate) ++ ']' :: rest)) := by
          simp [List.append_assoc]
        rw [hshape]
        have hgd : (pre ++ (generate v
            ++ ',' :: (joinComma ((w :: tl2).map generate) ++ ']' :: rest))).getD
            pre.length '\x00' = cv := by
          rw [hct]
          exact getD_append_cons pre cv _ '\x00'
        have hlt : pre.length < (pre ++ (generate v
            ++ ',' :: (joinComma ((w :: tl2).map generate) ++ ']' :: rest))).length := by
          rw [hct]
          exact len_lt_of_cons pre cv _
        have hws := ws_nop2 _ pre.length a b hlt (by rw [hgd]; exact hcsp)
        have hA := (ih n1 (by omega)).1 v pre
          (',' :: (joinComma ((w :: tl2).map generate) ++ ']' :: rest)) a b hvl.1 (by omega)
          (show isNumChar ',' = false by decide)
        have hrec : parseRun (pre ++ (generate v
            ++ ',' :: (joinComma ((w :: tl2).map generate) ++ ']' :: rest))) n1 .value
            (parse_whitespace (pre ++ (generate v
              ++ ',' :: (joinComma ((w :: tl2).map generate) ++ ']' :: rest)))
              ⟨pre.length, a, b⟩)
            = (.ok v, ⟨pre.length + (generate v).length, a, b⟩) := by
          rw [hws]
          exact hA
        rw [arrayLoopStep_iter _ _ pre.length a b acc v _ hlt
          (by rw [hgd]; exact hcne1) hrec]
        have hgroup : pre ++ (generate v
              ++ ',' :: (joinComma ((w :: tl2).map generate) ++ ']' :: rest))
            = (pre ++ generate v)
              ++ ',' :: (joinComma ((w :: tl2).map generate) ++ ']' :: rest) := by
          simp [List.append_assoc]
        have hlen2 : pre.length + (generate v).length = (pre ++ generate v).length := by
          simp
        have hgd4 : (pre ++ (generate v
            ++ ',' :: (joinComma ((w :: tl2).map generate) ++ ']' :: rest))).getD
            (pre.length + (generate v).length) '\x00' = ',' := by
          rw [hgroup, hlen2]
          exact getD_append_cons _ _ _ _
        have hlt4 : pre.length + (generate v).length < (pre ++ (generate v
            ++ ',' :: (joinComma ((w :: tl2).map generate) ++ ']' :: rest))).length := by
          rw [hgroup, hlen2]
          exact len_lt_of_cons _ _ _
        have hws4 := ws_nop2 _ (pre.length + (generate v).length) a b hlt4
          (by rw [hgd4]; decide)
        have hdrop4 : (pre ++ (generate v
            ++ ',' :: (joinComma ((w :: tl2).map generate) ++ ']' :: rest))).drop
            (pre.length + (generate v).length)
            = ',' :: (joinComma ((w :: tl2).map generate) ++ ']' :: rest) := by
          rw [hgroup, hlen2]
          exact List.drop_left _ _
        obtain ⟨cw, tw, hctw, hcwsp, hcwne1, hcwne2, hcwne3⟩ := gen_head w hw2.1
        obtain ⟨T2, hT2⟩ := joinComma_cons (generate w) (tl2.map generate)
        have hJ2 : joinComma ((w :: tl2).map generate) = generate w ++ T2 := hT2
        have hhf : headFails (fun c => c = ',')
            (joinComma ((w :: tl2).map generate) ++ ']' :: rest) := by
          rw [hJ2, hctw]
          exact (decide_eq_false hcwne2 : decide (cw = ',') = false)
        rw [hws4, skipCommas_one _ (pre.length + (generate v).length) a b
          (joinComma ((w :: tl2).map generate) ++ ']' :: rest) hdrop4 hhf]
        have hgroup3 : pre ++ (generate v
              ++ ',' :: (joinComma ((w :: tl2).map generate) ++ ']' :: rest))
            = ((pre ++ generate v) ++ [','])
              ++ (joinComma ((w :: tl2).map generate) ++ ']' :: rest) := by
          simp [List.append_assoc]
        have hlen3 : pre.length + (generate v).length + 1
            = ((pre ++ generate v) ++ [',']).length := by
          simp only [List.length_append, List.length_cons, List.length_nil]
        have hgd5 : (pre ++ (generate v
            ++ ',' :: (joinComma ((w :: tl2).map generate) ++ ']' :: rest))).getD
            (pre.length + (generate v).length + 1) '\x00' = cw := by
          rw [hgroup3, hlen3, hJ2, hctw]
          exact getD_append_cons _ _ _ _
        have hlt5 : pre.length + (generate v).length + 1 < (pre ++ (generate v
            ++ ',' :: (joinComma ((w :: tl2).map generate) ++ ']' :: rest))).length := by
          rw [hgroup3, hlen3, hJ2, hctw]
          exact len_lt_of_cons _ _ _
        have hws5 := ws_nop2 _ (pre.length + (generate v).length + 1) a b hlt5
          (by rw [hgd5]; exact hcwsp)
        rw [hws5, hlen3, hgroup3]
        rw [(ih n1 (by omega)).2.1 (w :: tl2) (acc ++ [v]) ((pre ++ generate v) ++ [','])
          rest a b hvl.2 (by omega)]
        have hval : (acc ++ [v]) ++ (w :: tl2) = acc ++ v :: w :: tl2 := by simp
        have hpos : ((pre ++ generate v) ++ [',']).length
            + (joinComma ((w :: tl2).map generate)).length + 1
            = pre.length + (generate v ++ ',' :: joinComma ((w :: tl2).map generate)).length
              + 1 := by
          simp only [List.length_append, List.length_cons, List.length_nil]
          omega
        rw [hval, hpos]
  · -- the object member loop
    intro ps acc pre rest a b hg hsort hcost hacc
    obtain ⟨n1, rfl⟩ : ∃ n1, n = n1 + 1 := ⟨n - 1, by have := costEntries_pos ps; omega⟩
    rw [parseRun_objectLoop_succ]
    cases ps with
    | nil =>
      have hgd : (pre ++ (joinComma (([] : List (List Char × Value)).map entryChunk)
          ++ '\x7d' :: rest)).getD pre.length '\x00' = '\x7d' :=
        getD_append_cons pre '\x7d' rest '\x00'
      have hlt : pre.length < (pre ++ (joinComma (([] : List (List Char × Value)).map entryChunk)
          ++ '\x7d' :: rest)).length :=
        len_lt_of_cons pre '\x7d' rest
      rw [objectLoopStep_exit _ _ pre.length a b acc hlt hgd]
      rw [List.append_nil]
      rfl
    | cons e tl =>
      rcases e with ⟨k, v⟩
      have h2 : ((!k.contains '\x22' && goodValue v) && goodEntries tl) = true := hg
      have h3 := Bool.and_eq_true _ _ ▸ h2
      have hkq : (!k.contains '\x22') = true := (Bool.and_eq_true _ _ ▸ h3.1).1
      have hv : goodValue v = true := (Bool.and_eq_true _ _ ▸ h3.1).2
      have htl : goodEntries tl = true := h3.2
      have hk : k.all (fun ch => ch ≠ '\x22') = true := by
        refine not_contains_all _ _ ?_
        cases hc2 : k.contains '\x22'
        · rfl
        · rw [hc2] at hkq
          exact Bool.noConfusion hkq
      have hsorttl : sortedKeys tl = true := sortedKeys_tail _ _ hsort
      have hheadlt : ∀ p ∈ tl, keyLt k p.1 = true := sorted_head_lt k v tl hsort
      have hins : mapInsert k v acc = acc ++ [(k, v)] :=
        mapInsert_append k v acc (fun p hp => hacc p hp (k, v) (List.mem_cons_self _ _))
      have hcoste : costEntries ((k, v) :: tl) = 1 + cost v + costEntries tl := rfl
      have hcp1 := cost_pos v
      obtain ⟨cv, tv, hct, hcsp, hcne1, hcne2, hcne3⟩ := gen_head v hv
      cases tl with
      | nil =>
        have hcp2 : costEntries ([] : List (List Char × Value)) = 1 := rfl
        have hJ : joinComma ((((k, v)) :: ([] : List (List Char × Value))).map entryChunk)
            = entryChunk (k, v) := rfl
        rw [hJ]
        have hshape : pre ++ (entryChunk (k, v) ++ '\x7d' :: rest)
            = pre ++ '\x22' :: (k ++ '\x22' :: (':' :: (generate v ++ '\x7d' :: rest))) := by
          simp [entryChunk, generate_string, List.append_assoc]
        rw [hshape]
        have hgd : (pre ++ '\x22' :: (k ++ '\x22' :: (':' :: (generate v
            ++ '\x7d' :: rest)))).getD pre.length '\x00' = '\x22' :=
          getD_append_cons _ _ _ _
        have hlt : pre.length < (pre ++ '\x22' :: (k ++ '\x22' :: (':' :: (generate v
            ++ '\x7d' :: rest)))).length := len_lt_of_cons _ _ _
        have hkey := parse_string_ok pre k (':' :: (generate v ++ '\x7d' :: rest)) a b hk
        have hgroupC : pre ++ '\x22' :: (k ++ '\x22' :: (':' :: (generate v
              ++ '\x7d' :: rest)))
            = (pre ++ '\x22' :: k ++ ['\x22']) ++ ':' :: (generate v ++ '\x7d' :: rest) := by
          simp [List.append_assoc]
        have hlenC : pre.length + 1 + k.length + 1
            = (pre ++ '\x22' :: k ++ ['\x22']).length := by
          simp only [List.length_append, List.length_cons, List.length_nil]
          omega
        have hgdc : (pre ++ '\x22' :: (k ++ '\x22' :: (':' :: (generate v
            ++ '\x7d' :: rest)))).getD (pre.length + 1 + k.length + 1) '\x00' = ':' := by
          rw [hgroupC, hlenC]
          exact getD_append_cons _ _ _ _
        have hltc : pre.length + 1 + k.length + 1
            < (pre ++ '\x22' :: (k ++ '\x22' :: (':' :: (generate v
              ++ '\x7d' :: rest)))).length := by
          rw [hgroupC, hlenC]
          exact len_lt_of_cons _ _ _
        have hw1 := ws_nop2 _ (pre.length + 1 + k.length + 1) a b hltc (by rw [hgdc]; decide)
        have hgroupA : pre ++ '\x22' :: (k ++ '\x22' :: (':' :: (generate v
              ++ '\x7d' :: rest)))
            = ((pre ++ '\x22' :: k ++ ['\x22']) ++ [':'])
              ++ (generate v ++ '\x7d' :: rest) := by
          simp [List.append_assoc]
        have hlenA : pre.length + 1 + k.length + 1 + 1
            = ((pre ++ '\x22' :: k ++ ['\x22']) ++ [':']).length := by
          simp only [List.length_append, List.length_cons, List.length_nil]
          omega
        have hgdv : (pre ++ '\x22' :: (k ++ '\x22' :: (':' :: (generate v
            ++ '\x7d' :: rest)))).getD (pre.length + 1 + k.length + 1 + 1) '\x00' = cv := by
          rw [hgroupA, hlenA, hct]
          exact getD_append_cons _ _ _ _
        have hltv : pre.length + 1 + k.length + 1 + 1
            < (pre ++ '\x22' :: (k ++ '\x22' :: (':' :: (generate v
              ++ '\x7d' :: rest)))).length := by
          rw [hgroupA, hlenA, hct]
          exact len_lt_of_cons _ _ _
        have hwsv := ws_nop2 _ (pre.length + 1 + k.length + 1 + 1) a b hltv
          (by rw [hgdv]; exact hcsp)
        have hA := (ih n1 (by omega)).1 v ((pre ++ '\x22' :: k ++ ['\x22']) ++ [':'])
          ('\x7d' :: rest) a b hv (by omega) (show isNumChar '\x7d' = false by decide)
        have hrec : parseRun (pre ++ '\x22' :: (k ++ '\x22' :: (':' :: (generate v
            ++ '\x7d' :: rest)))) n1 .value
            (parse_whitespace (pre ++ '\x22' :: (k ++ '\x22' :: (':' :: (generate v
              ++ '\x7d' :: rest))))
              (if (pre ++ '\x22' :: (k ++ '\x22' :: (':' :: (generate v
                  ++ '\x7d' :: rest)))).getD (pre.length + 1 + k.length + 1) '\x00' = ':'
                then ⟨pre.length + 1 + k.length + 1 + 1, a, b⟩
                else ⟨pre.length + 1 + k.length + 1, a, b⟩))
            = (.ok v, ⟨((pre ++ '\x22' :: k ++ ['\x22']) ++ [':']).length
                + (generate v).length, a, b⟩) := by
          rw [hgdc, if_pos rfl, hwsv, hlenA, hgroupA]
          exact hA
        rw [objectLoopStep_iter _ _ pre.length a b acc k (pre.length + 1 + k.length + 1)
          a b v _ hlt (by rw [hgd]; decide) hkey hw1 hltc hrec]
        have hgroupE : pre ++ '\x22' :: (k ++ '\x22' :: (':' :: (generate v
              ++ '\x7d' :: rest)))
            = (((pre ++ '\x22' :: k ++ ['\x22']) ++ [':']) ++ generate v)
              ++ '\x7d' :: rest := by
          simp [List.append_assoc]
        have hlenE : ((pre ++ '\x22' :: k ++ ['\x22']) ++ [':']).length
              + (generate v).length
            = (((pre ++ '\x22' :: k ++ ['\x22']) ++ [':']) ++ generate v).length := by
          simp only [List.length_append, List.length_cons, List.length_nil] <;> omega
        have hgdE : (pre ++ '\x22' :: (k ++ '\x22' :: (':' :: (generate v
            ++ '\x7d' :: rest)))).getD (((pre ++ '\x22' :: k ++ ['\x22']) ++ [':']).length
              + (generate v).length) '\x00' = '\x7d' := by
          rw [hgroupE, hlenE]
          exact getD_append_cons _ _ _ _
        have hltE : ((pre ++ '\x22' :: k ++ ['\x22']) ++ [':']).length + (generate v).length
            < (pre ++ '\x22' :: (k ++ '\x22' :: (':' :: (generate v
              ++ '\x7d' :: rest)))).length := by
          rw [hgroupE, hlenE]
          exact len_lt_of_cons _ _ _
        have hwsE := ws_nop2 _ (((pre ++ '\x22' :: k ++ ['\x22']) ++ [':']).length
          + (generate v).length) a b hltE (by rw [hgdE]; decide)
        have hdropE : (pre ++ '\x22' :: (k ++ '\x22' :: (':' :: (generate v
            ++ '\x7d' :: rest)))).drop (((pre ++ '\x22' :: k ++ ['\x22']) ++ [':']).length
              + (generate v).length) = '\x7d' :: rest := by
          rw [hgroupE, hlenE]
          exact List.drop_left _ _
        rw [hwsE, skipCommas_zero _ (((pre ++ '\x22' :: k ++ ['\x22']) ++ [':']).length
          + (generate v).length) a b
          (by rw [hdropE]; exact (show decide (('\x7d' : Char) = ',') = false by decide)), hwsE]
        rw [hins, hlenE, hgroupE]
        have ihC := (ih n1 (by omega)).2.2 [] (acc ++ [(k, v)])
          (((pre ++ '\x22' :: k ++ ['\x22']) ++ [':']) ++ generate v) rest a b rfl rfl
          (by omega) (by intro p hp q hq; exact absurd hq (List.not_mem_nil q))
        simp only [List.map_nil, joinComma, List.nil_append, List.length_nil,
          Nat.add_zero, List.append_nil] at ihC
        rw [ihC]
        have hfin : ((((pre ++ '\x22' :: k ++ ['\x22']) ++ [':']) ++ generate v)).length + 1
            = pre.length + (entryChunk (k, v)).length + 1 := by
          simp only [List.length_append, List.length_cons, List.length_nil,
            entryChunk, generate_string]
          omega
        rw [hfin]
      | cons q tl2 =>
        have hcp2 := costEntries_pos (q :: tl2)
        have hJ : joinComma (((k, v) :: q :: tl2).map entryChunk)
            = entryChunk (k, v) ++ ',' :: joinComma ((q :: tl2).map entryChunk) := rfl
        rw [hJ]
        have hshape : pre ++ ((entryChunk (k, v)
              ++ ',' :: joinComma ((q :: tl2).map entryChunk)) ++ '\x7d' :: rest)
            = pre ++ '\x22' :: (k ++ '\x22' :: (':' :: (generate v
              ++ ',' :: (joinComma ((q :: tl2).map entryChunk) ++ '\x7d' :: rest)))) := by
          simp [entryChunk, generate_string, List.append_assoc]
        rw [hshape]
        have hgd : (pre ++ '\x22' :: (k ++ '\x22' :: (':' :: (generate v
            ++ ',' :: (joinComma ((q :: tl2).map entryChunk) ++ '\x7d' :: rest))))).getD
            pre.length '\x00' = '\x22' := getD_append_cons _ _ _ _
        have hlt : pre.length < (pre ++ '\x22' :: (k ++ '\x22' :: (':' :: (generate v
            ++ ',' :: (joinComma ((q :: tl2).map entryChunk)
              ++ '\x7d' :: rest))))).length := len_lt_of_cons _ _ _
        have hkey := parse_string_ok pre k (':' :: (generate v
          ++ ',' :: (joinComma ((q :: tl2).map entryChunk) ++ '\x7d' :: rest))) a b hk
        have hgroupC : pre ++ '\x22' :: (k ++ '\x22' :: (':' :: (generate v
              ++ ',' :: (joinComma ((q :: tl2).map entryChunk) ++ '\x7d' :: rest))))
            = (pre ++ '\x22' :: k ++ ['\x22']) ++ ':' :: (generate v
              ++ ',' :: (joinComma ((q :: tl2).map entryChunk) ++ '\x7d' :: rest)) := by
          simp [List.append_assoc]
        have hlenC : pre.length + 1 + k.length + 1
            = (pre ++ '\x22' :: k ++ ['\x22']).length := by
          simp only [List.length_append, List.length_cons, List.length_nil]
          omega
        have hgdc : (pre ++ '\x22' :: (k ++ '\x22' :: (':' :: (generate v
            ++ ',' :: (joinComma ((q :: tl2).map entryChunk) ++ '\x7d' :: rest))))).getD
            (pre.length + 1 + k.length + 1) '\x00' = ':' := by
          rw [hgroupC, hlenC]
          exact getD_append_cons _ _ _ _
        have hltc : pre.length + 1 + k.length + 1
            < (pre ++ '\x22' :: (k ++ '\x22' :: (':' :: (generate v
              ++ ',' :: (joinComma ((q :: tl2).map entryChunk)
                ++ '\x7d' :: rest))))).length := by
          rw [hgroupC, hlenC]
          exact len_lt_of_cons _ _ _
        have hw1 := ws_nop2 _ (pre.length + 1 + k.length + 1) a b hltc (by rw [hgdc]; decide)
        have hgroupA : pre ++ '\x22' :: (k ++ '\x22' :: (':' :: (generate v
              ++ ',' :: (joinComma ((q :: tl2).map entryChunk) ++ '\x7d' :: rest))))
            = ((pre ++ '\x22' :: k ++ ['\x22']) ++ [':']) ++ (generate v
              ++ ',' :: (joinComma ((q :: tl2).map entryChunk) ++ '\x7d' :: rest)) := by
          simp [List.append_assoc]
        have hlenA : pre.length + 1 + k.length + 1 + 1
            = ((pre ++ '\x22' :: k ++ ['\x22']) ++ [':']).length := by
          simp only [List.length_append, List.length_cons, List.length_nil]
          omega
        have hgdv : (pre ++ '\x22' :: (k ++ '\x22' :: (':' :: (generate v
            ++ ',' :: (joinComma ((q :: tl2).map entryChunk) ++ '\x7d' :: rest))))).getD
            (pre.length + 1 + k.length + 1 + 1) '\x00' = cv := by
          rw [hgroupA, hlenA, hct]
          exact getD_append_cons _ _ _ _
        have hltv : pre.length + 1 + k.length + 1 + 1
            < (pre ++ '\x22' :: (k ++ '\x22' :: (':' :: (generate v
              ++ ',' :: (joinComma ((q :: tl2).map entryChunk)
                ++ '\x7d' :: rest))))).length := by
          rw [hgroupA, hlenA, hct]
          exact len_lt_of_cons _ _ _
        have hwsv := ws_nop2 _ (pre.length + 1 + k.length + 1 + 1) a b hltv
          (by rw [hgdv]; exact hcsp)
        have hA := (ih n1 (by omega)).1 v ((pre ++ '\x22' :: k ++ ['\x22']) ++ [':'])
          (',' :: (joinComma ((q :: tl2).map entryChunk) ++ '\x7d' :: rest)) a b hv
          (by omega) (show isNumChar ',' = false by decide)
        have hrec : parseRun (pre ++ '\x22' :: (k ++ '\x22' :: (':' :: (generate v
            ++ ',' :: (joinComma ((q :: tl2).map entryChunk) ++ '\x7d' :: rest))))) n1 .value
            (parse_whitespace (pre ++ '\x22' :: (k ++ '\x22' :: (':' :: (generate v
              ++ ',' :: (joinComma ((q :: tl2).map entryChunk) ++ '\x7d' :: rest)))))
              (if (pre ++ '\x22' :: (k ++ '\x22' :: (':' :: (generate v
                  ++ ',' :: (joinComma ((q :: tl2).map entryChunk)
                    ++ '\x7d' :: rest))))).getD (pre.length + 1 + k.length + 1) '\x00' = ':'
                then ⟨pre.length + 1 + k.length + 1 + 1, a, b⟩
                else ⟨pre.length + 1 + k.length + 1, a, b⟩))
            = (.ok v, ⟨((pre ++ '\x22' :: k ++ ['\x22']) ++ [':']).length
                + (generate v).length, a, b⟩) := by
          rw [hgdc, if_pos rfl, hwsv, hlenA, hgroupA]
          exact hA
        rw [objectLoopStep_iter _ _ pre.length a b acc k (pre.length + 1 + k.length + 1)
          a b v _ hlt (by rw [hgd]; decide) hkey hw1 hltc hrec]
        have hgroupE : pre ++ '\x22' :: (k ++ '\x22' :: (':' :: (generate v
              ++ ',' :: (joinComma ((q :: tl2).map entryChunk) ++ '\x7d' :: rest))))
            = (((pre ++ '\x22' :: k ++ ['\x22']) ++ [':']) ++ generate v)
              ++ ',' :: (joinComma ((q :: tl2).map entryChunk) ++ '\x7d' :: rest) := by
          simp [List.append_assoc]
        have hlenE : ((pre ++ '\x22' :: k ++ ['\x22']) ++ [':']).length
              + (generate v).length
            = (((pre ++ '\x22' :: k ++ ['\x22']) ++ [':']) ++ generate v).length := by
          simp only [List.length_append, List.length_cons, List.length_nil] <;> omega
        have hgdE : (pre ++ '\x22' :: (k ++ '\x22' :: (':' :: (generate v
            ++ ',' :: (joinComma ((q :: tl2).map entryChunk) ++ '\x7d' :: rest))))).getD
            (((pre ++ '\x22' :: k ++ ['\x22']) ++ [':']).length
              + (generate v).length) '\x00' = ',' := by
          rw [hgroupE, hlenE]
          exact getD_append_cons _ _ _ _
        have hltE : ((pre ++ '\x22' :: k ++ ['\x22']) ++ [':']).length + (generate v).length
            < (pre ++ '\x22' :: (k ++ '\x22' :: (':' :: (generate v
              ++ ',' :: (joinComma ((q :: tl2).map entryChunk)
                ++ '\x7d' :: rest))))).length := by
          rw [hgroupE, hlenE]
          exact len_lt_of_cons _ _ _
        have hwsE := ws_nop2 _ (((pre ++ '\x22' :: k ++ ['\x22']) ++ [':']).length
          + (generate v).length) a b hltE (by rw [hgdE]; decide)
        have hdropE : (pre ++ '\x22' :: (k ++ '\x22' :: (':' :: (generate v
            ++ ',' :: (joinComma ((q :: tl2).map entryChunk) ++ '\x7d' :: rest))))).drop
            (((pre ++ '\x22' :: k ++ ['\x22']) ++ [':']).length + (generate v).length)
            = ',' :: (joinComma ((q :: tl2).map entryChunk) ++ '\x7d' :: rest) := by
          rw [hgroupE, hlenE]
          exact List.drop_left _ _
        obtain ⟨T2, hT2⟩ := joinComma_cons (entryChunk q) (tl2.map entryChunk)
        have hJ2 : joinComma ((q :: tl2).map entryChunk) = entryChunk q ++ T2 := hT2
        have hhf : headFails (fun c => c = ',')
            (joinComma ((q :: tl2).map entryChunk) ++ '\x7d' :: rest) := by
          rw [hJ2]
          exact (decide_eq_false (by decide) : decide (('\x22' : Char) = ',') = false)
        rw [hwsE, skipCommas_one _ (((pre ++ '\x22' :: k ++ ['\x22']) ++ [':']).length
          + (generate v).length) a b
          (joinComma ((q :: tl2).map entryChunk) ++ '\x7d' :: rest) hdropE hhf]
        have hgroupF : pre ++ '\x22' :: (k ++ '\x22' :: (':' :: (generate v
              ++ ',' :: (joinComma ((q :: tl2).map entryChunk) ++ '\x7d' :: rest))))
            = ((((pre ++ '\x22' :: k ++ ['\x22']) ++ [':']) ++ generate v) ++ [','])
              ++ (joinComma ((q :: tl2).map entryChunk) ++ '\x7d' :: rest) := by
          simp [List.append_assoc]
        have hlenF : ((pre ++ '\x22' :: k ++ ['\x22']) ++ [':']).length
              + (generate v).length + 1
            = ((((pre ++ '\x22' :: k ++ ['\x22']) ++ [':']) ++ generate v)
              ++ [',']).length := by
          simp only [List.length_append, List.length_cons, List.length_nil]
        have hgdF : (pre ++ '\x22' :: (k ++ '\x22' :: (':' :: (generate v
            ++ ',' :: (joinComma ((q :: tl2).map entryChunk) ++ '\x7d' :: rest))))).getD
            (((pre ++ '\x22' :: k ++ ['\x22']) ++ [':']).length
              + (generate v).length + 1) '\x00' = '\x22' := by
          rw [hgroupF, hlenF, hJ2]
          exact getD_append_cons _ _ _ _
        have hltF : ((pre ++ '\x22' :: k ++ ['\x22']) ++ [':']).length
              + (generate v).length + 1
            < (pre ++ '\x22' :: (k ++ '\x22' :: (':' :: (generate v
              ++ ',' :: (joinComma ((q :: tl2).map entryChunk)
                ++ '\x7d' :: rest))))).length := by
          rw [hgroupF, hlenF, hJ2]
          exact len_lt_of_cons _ _ _
        have hwsF := ws_nop2 _ (((pre ++ '\x22' :: k ++ ['\x22']) ++ [':']).length
          + (generate v).length + 1) a b hltF (by rw [hgdF]; decide)
        rw [hwsF, hins, hlenF, hgroupF]
        have hacc2 : ∀ p ∈ acc ++ [(k, v)], ∀ q2 ∈ q :: tl2, keyLt p.1 q2.1 = true := by
          intro p hp q2 hq2
          rcases List.mem_append.mp hp with hpa | hpk
          · exact hacc p hpa q2 (List.mem_cons_of_mem _ hq2)
          · rw [List.mem_singleton] at hpk
            subst hpk
            exact hheadlt q2 hq2
        rw [(ih n1 (by omega)).2.2 (q :: tl2) (acc ++ [(k, v)])
          ((((pre ++ '\x22' :: k ++ ['\x22']) ++ [':']) ++ generate v) ++ [','])
          rest a b htl hsorttl (by omega) hacc2]
        have hval : (acc ++ [(k, v)]) ++ (q :: tl2) = acc ++ (k, v) :: q :: tl2 := by simp
        have hpos : ((((pre ++ '\x22' :: k ++ ['\x22']) ++ [':']) ++ generate v)
              ++ [',']).length + (joinComma ((q :: tl2).map entryChunk)).length + 1
            = pre.length + (entryChunk (k, v)
              ++ ',' :: joinComma ((q :: tl2).map entryChunk)).length + 1 := by
          simp only [List.length_append, List.length_cons, List.length_nil,
            entryChunk, generate_string]
          omega
        rw [hval, hpos]

section ClaimTheorems

/-- C10: the cursor advances monotonically: for every production of
`JsonParser` — whitespace skip, the three keyword literals, numbers, strings,
comma skipping, the value dispatch, arrays and their element loop, objects and
their member loop, and the top-level `parse` — and every starting state, the
cursor after the call is at least the cursor before it. -/
theorem cursor_monotone (s : List Char) :
    (∀ st, st.pos ≤ (parse_whitespace s st).pos) ∧
    (∀ st, st.pos ≤ (parse_null s st).2.pos) ∧
    (∀ st, st.pos ≤ (parse_true s st).2.pos) ∧
    (∀ st, st.pos ≤ (parse_false s st).2.pos) ∧
    (∀ st, st.pos ≤ (parse_numbers s st).2.pos) ∧
    (∀ st, st.pos ≤ (parse_string s st).2.pos) ∧
    (∀ st, st.pos ≤ (skipCommas s st).pos) ∧
    (∀ n st, st.pos ≤ (parse_value s n st).2.pos) ∧
    (∀ n st, st.pos ≤ (parse_array s n st).2.pos) ∧
    (∀ n st acc, st.pos ≤ (arrayLoop s n st acc).2.pos) ∧
    (∀ n st, st.pos ≤ (parse_object s n st).2.pos) ∧
    (∀ n st acc, st.pos ≤ (objectLoop s n st acc).2.pos) ∧
    (∀ fuel st, st.pos ≤ (parse s fuel st).2.pos) :=
  ⟨ws_pos_ge s, null_pos_ge s, true_pos_ge s, false_pos_ge s, numbers_pos_ge s,
   string_pos_ge s, skipCommas_pos_ge s,
   fun n st => parseRun_pos_ge s n .value st,
   fun n st => parseRun_pos_ge s n .array st,
   fun n st acc => parseRun_pos_ge s n (.arrayLoopAcc acc) st,
   fun n st => parseRun_pos_ge s n .object st,
   fun n st acc => parseRun_pos_ge s n (.objectLoopAcc acc) st,
   fun fuel st => parse_pos_ge s fuel st⟩

/-- C6 (amended): on every input, the unguarded character reads of the parser
stay within the null-terminated buffer: the final state of `json::parser`
records no read at an index strictly beyond the text length, and the cursor
ends within `length`.  Reads at exactly index `length` (the terminator, out of
bounds of the `string_view` itself) do occur — see the counterexample on the
empty input. -/
theorem reads_never_pass_terminator (s : List Char) :
    (parseSt s).oobPast = false ∧ (parseSt s).pos ≤ s.length := by
  have hws := ws_bound s ⟨0, false, false⟩ (Nat.zero_le _)
  have hr := parseRun_bound s (parserFuel s) .value (parse_whitespace s ⟨0, false, false⟩) hws.1
  exact ⟨hr.2.trans (hws.2.trans rfl), hr.1⟩

/-- C6 counterexample: already on the empty input the whitespace loop reads
`str[0]` with `0 = length`, an index not strictly less than the text length, so
the claim that every read happens at an index strictly below the length (even
for the empty text) is false. -/
theorem read_at_end_on_empty_input : (parseSt "".data).oobAtEnd = true := rfl

set_option maxHeartbeats 1000000 in
/-- C1 (the code, not the claim): the core does terminate the process on most
malformed inputs.  `parse("nul")`, `parse("tru")`, `parse("[1,2")` and
`parse("\x7b\x22a\x22:1")` all print their message and call `exit(0)` inside
`parse_value` (the `Res.exited` outcome); only the stray-`]` error of the
dispatch `default` branch is returned to the caller as a value. -/
theorem parse_exits_on_malformed :
    parseTop "nul" = .exited "nul is not defined, wanna use \x22null\x22? ".data ∧
    parseTop "tru" = .exited "tru is not defined, wanna use \x22true\x22? ".data ∧
    parseTop "[1,2" = .exited "failed to find \x27]\x27".data ∧
    parseTop "\x7b\x22a\x22:1" = .exited "failed to find \x27\x7d\x27".data ∧
    parseTop "]" = .err "find \x27]\x27 without \x27[\x27 infront of".data :=
  ⟨rfl, rfl, rfl, rfl, rfl⟩

set_option maxHeartbeats 1000000 in
/-- C3 counterexample: the digit string `3000000000` denotes a value
representable as a signed 64-bit integer, yet parsing it does not return
`Int(3000000000)`: `stoi` is a 32-bit conversion, it throws, and `parse_value`
prints the conversion error and exits the process. -/
theorem int_range_counterexample :
    parseTop "3000000000" ≠ .ok (.VInt 3000000000) := by
  have hbase : parseTop "3000000000"
      = .exited "try parsing 3000000000 to integer, but failed.".data := rfl
  rw [hbase]
  exact fun h => Res.noConfusion h

/-- C3 (amended): for every numeral captured by the number production that
contains neither `.` nor `e` (here: a whole-input nonempty digit string, which
is captured in full), if its value is at most `2147483647` (`INT_MAX`, the
bound of the 32-bit `std::stoi`, not of a 64-bit integer) the parse returns the
`Int` variant holding exactly that value, and beyond that bound the conversion
fails (`stoi` throws `std::out_of_range`) with the message
`try parsing <num> to integer, but failed.` and the process exits. -/
theorem stoi_is_32_bit (num : List Char) (hne : num ≠ [])
    (hall : num.all isDigitChar = true) :
    parseList num =
      if digitsToNat num ≤ 2147483647 then .ok (.VInt (digitsToNat num))
      else .exited ("try parsing ".data ++ num ++ " to integer, but failed.".data) := by
  obtain ⟨c, t, rfl⟩ : ∃ c t, num = c :: t := by
    cases num with
    | nil => exact absurd rfl hne
    | cons c t => exact ⟨c, t, rfl⟩
  have hc0 : isDigitChar c = true := List.all_eq_true.mp hall c (List.mem_cons_self c t)
  have hc : isDigitChar ((c :: t).getD 0 '\x00') = true := hc0
  have hws : parse_whitespace (c :: t) ⟨0, false, false⟩ = ⟨0, false, false⟩ :=
    ws_nop [] c t false false (digit_not_space hc0)
  have hp : 0 < (c :: t).length := Nat.succ_pos _
  show (parseRun (c :: t) (3 * (c :: t).length + 3) .value
      (parse_whitespace (c :: t) ⟨0, false, false⟩)).1 = _
  rw [hws, parseRun_fuel3,
    valueStep_at_digit (c :: t) (parseRun (c :: t) (3 * (c :: t).length + 2)) 0 false false
      hws hp hc,
    parse_numbers_int (c :: t) 0 false false (c :: t) hws (scan_all_digits hall) hall hne]
  by_cases hle : digitsToNat (c :: t) ≤ 2147483647
  · rw [if_pos hle, if_pos hle]
    rfl
  · rw [if_neg hle, if_neg hle]
    rfl

set_option maxHeartbeats 1000000 in
/-- C3 witness: `7` is a nonempty digit string within the 32-bit bound and
parses to `Int(7)`. -/
theorem stoi_is_32_bit_witness :
    parseList "7".data =
      if digitsToNat "7".data ≤ 2147483647 then .ok (.VInt (digitsToNat "7".data))
      else .exited ("try parsing ".data ++ "7".data ++ " to integer, but failed.".data) :=
  stoi_is_32_bit "7".data (by decide) (by decide)

set_option maxHeartbeats 1000000 in
/-- C4 counterexample: in `\x7babc"\x3a1\x7d` the key position does not start
with `"`, yet the object production does not fail: `parse_string` tolerates the
missing opening quote, scans to the next `"`, and the text parses successfully
with key `abc` — the `key of objects isnt string` error is not raised. -/
theorem object_unquoted_key_ok :
    parseTop "\x7babc\x22:1\x7d" = .ok (.VObject [("abc".data, .VInt 1)]) ∧
    parseTop "\x7babc\x22:1\x7d" ≠ .err "key of objects isnt string".data ∧
    parseTop "\x7babc\x22:1\x7d" ≠ .exited "key of objects isnt string".data := by
  have hbase : parseTop "\x7babc\x22:1\x7d" = .ok (.VObject [("abc".data, .VInt 1)]) := rfl
  refine ⟨hbase, ?_, ?_⟩
  · rw [hbase]; exact fun h => Res.noConfusion h
  · rw [hbase]; exact fun h => Res.noConfusion h

/-- C4 (amended): the member loop of `parse_object` fails with the
`key of objects isnt string` error exactly when `parse_string` fails at the key
position — that is, when the remaining text holds no closing `"` (a key that
merely lacks its opening `"` still parses, see the counterexample) — and on
that failure the loop returns the error at once: no key/value pair derived from
that position is inserted into the object. -/
theorem objectLoop_key_error (s : List Char) (rec : PCall → PSt → Res Value × PSt)
    (st : PSt) (acc : List (List Char × Value))
    (hguard : st.pos < s.length ∧ s.getD st.pos '\x00' ≠ '\x7d')
    (m : List Char) (hfail : (parse_string s st).1 = .err m) :
    objectLoopStep s rec st acc
      = (.err "key of objects isnt string".data, (parse_string s st).2) := by
  unfold objectLoopStep
  have hg : (decide (st.pos < s.length) && (s.getD st.pos '\x00' != '\x7d')) = true := by
    simp only [Bool.and_eq_true, decide_eq_true_eq, bne_iff_ne, ne_eq]
    exact hguard
  rw [if_pos hg]
  split
  · rename_i k st1 heq
    rw [heq] at hfail
    exact Res.noConfusion hfail
  · rename_i m2 st1 heq
    rw [heq]
  · rename_i m2 st1 heq
    rw [heq] at hfail
    exact Res.noConfusion hfail

set_option maxHeartbeats 1000000 in
/-- C4 witness: in `\x7ba\x7d` the key position holds `a` and no closing quote
follows, so the member loop reports the key error and inserts nothing. -/
theorem objectLoop_key_error_witness :
    objectLoopStep "\x7ba\x7d".data (fun _ st => (.err [], st)) ⟨1, false, false⟩ []
      = (.err "key of objects isnt string".data,
         (parse_string "\x7ba\x7d".data ⟨1, false, false⟩).2) :=
  objectLoop_key_error "\x7ba\x7d".data (fun _ st => (.err [], st)) ⟨1, false, false⟩ []
    (by decide) "failed to find \x27\x22\x27".data (by rfl)

set_option maxRecDepth 8192 in
set_option maxHeartbeats 1000000 in
/-- C5: the numeric variant is decided purely by the lexical shape of the
captured numeral: whenever `parse_numbers` succeeds, the value is a `Float`
when the capture holds `.` or `e` and an `Int` otherwise (the scan never
captures `E`, which it does not even accept); concretely `42` parses to
`Int(42)`, `3.14` to `Float(3.14)` (the exact rational 157/50 in this model of
`stod`) and `1e3` to a `Float` (1000). -/
theorem numeric_variant_lexical :
    (∀ (s : List Char) (st : PSt) (v : Value),
      (parse_numbers s st).1 = .ok v →
      if (capturedNum s st).contains '.' || (capturedNum s st).contains 'e' then
        ∃ q, v = .VFloat q
      else ∃ i, v = .VInt i) ∧
    parseTop "42" = .ok (.VInt 42) ∧
    parseTop "3.14" = .ok (.VFloat (mkRat 157 50)) ∧
    parseTop "1e3" = .ok (.VFloat (mkRat 1000 1)) := by
  refine ⟨?_, rfl, rfl, rfl⟩
  intro s st v h
  rcases hw : parse_whitespace s st with ⟨p1, a1, b1⟩
  rw [parse_numbers_unfold s st p1 a1 b1 hw] at h
  unfold capturedNum
  rw [hw]
  simp only [PSt_pos]
  by_cases hcond : (((s.drop p1).takeWhile isNumChar).contains '.'
      || ((s.drop p1).takeWhile isNumChar).contains 'e') = true
  · rw [if_pos hcond] at h
    rw [if_pos hcond]
    by_cases hov : stodOverflows (floatVal ((s.drop p1).takeWhile isNumChar)) = true
    · rw [if_pos hov] at h
      exact Res.noConfusion h
    · rw [if_neg hov] at h
      injection h with h2
      exact ⟨_, h2.symm⟩
  · rw [if_neg hcond] at h
    rw [if_neg hcond]
    split at h
    · rename_i i heq
      injection h with h2
      exact ⟨i, h2.symm⟩
    · rename_i heq
      exact Res.noConfusion h

set_option maxRecDepth 8192 in
set_option maxHeartbeats 1000000 in
/-- C5 witness: the capture of `3.14` holds `.`, so the parsed value is the
`Float` variant. -/
theorem numeric_variant_lexical_witness :
    if (capturedNum "3.14".data ⟨0, false, false⟩).contains '.'
        || (capturedNum "3.14".data ⟨0, false, false⟩).contains 'e' then
      ∃ q, Value.VFloat (mkRat 157 50) = .VFloat q
    else ∃ i, Value.VFloat (mkRat 157 50) = .VInt i :=
  numeric_variant_lexical.1 "3.14".data ⟨0, false, false⟩ (.VFloat (mkRat 157 50)) (by rfl)

set_option maxHeartbeats 1000000 in
/-- C7: the string production consumes an opening `"`, scans forward to the
next `"` with no escape handling, and (i) on a closing quote returns the
scanned substring with the cursor advanced past it; (ii) fails with
`failed to find \x27"\x27` when the end of input comes first (the cursor stays
after the opening quote; the stopping read touches the terminator index);
(iii) `parse("\x22hi\x22")` is `String("hi")`; (iv) a backslash does not
escape a quote: `"a\\"` followed by `"` parses as the string `a\\`. -/
theorem string_production (pre k rest : List Char) (a b : Bool)
    (hk : k.all (fun ch => ch ≠ '\x22') = true) :
    parse_string (pre ++ '\x22' :: (k ++ '\x22' :: rest)) ⟨pre.length, a, b⟩
      = (.ok k, ⟨pre.length + 1 + k.length + 1, a, b⟩) ∧
    parse_string (pre ++ '\x22' :: k) ⟨pre.length, a, b⟩
      = (.err "failed to find \x27\x22\x27".data, ⟨pre.length + 1, true, b⟩) ∧
    parseTop "\x22hi\x22" = .ok (.VString "hi".data) ∧
    parseTop "\x22a\\\x22" = .ok (.VString "a\\".data) :=
  ⟨parse_string_ok pre k rest a b hk, parse_string_err pre k a b hk, rfl, rfl⟩

set_option maxHeartbeats 1000000 in
/-- C7 witness: on `"hi"` from the start, the production returns `hi` with the
cursor past the closing quote; on `"hi` it reports the missing quote. -/
theorem string_production_witness :
    parse_string (([] : List Char) ++ '\x22' :: ("hi".data ++ '\x22' :: []))
        ⟨(0 : Nat), false, false⟩
      = (.ok "hi".data, ⟨0 + 1 + "hi".data.length + 1, false, false⟩) ∧
    parse_string (([] : List Char) ++ '\x22' :: "hi".data) ⟨(0 : Nat), false, false⟩
      = (.err "failed to find \x27\x22\x27".data, ⟨0 + 1, true, false⟩) ∧
    parseTop "\x22hi\x22" = .ok (.VString "hi".data) ∧
    parseTop "\x22a\\\x22" = .ok (.VString "a\\".data) :=
  string_production [] "hi".data [] false false (by decide)

/-- C8: the serializer emits arrays as `[` plus the comma-joined serialized
elements in order plus `]`, and objects as `\x7b` plus the comma-joined
`"key":value` chunks in the stored (container) order plus `\x7d` — no trailing
comma and no added whitespace — with `[]` and `\x7b\x7d` for the empty
containers, and `generate` on array/object nodes is exactly these bodies. -/
theorem serializer_shapes :
    (∀ arr : List Value, generate_array arr = '[' :: joinComma (arr.map generate) ++ [']']) ∧
    (∀ ps : List (List Char × Value),
      generate_object ps = '\x7b' :: joinComma (ps.map entryChunk) ++ ['\x7d']) ∧
    generate_array [] = "[]".data ∧
    generate_object [] = "\x7b\x7d".data ∧
    (∀ l : List Value, generate (.VArray l) = generate_array l) ∧
    (∀ ps : List (List Char × Value), generate (.VObject ps) = generate_object ps) :=
  ⟨generate_array_join, generate_object_join, rfl, rfl, fun l => rfl, fun ps => rfl⟩

set_option maxHeartbeats 1000000 in
/-- C9: object keys are unique at all times: `obj[key] = value` on the sorted
map keeps the keys strictly ascending (hence duplicate-free), overwrites the
value when the key is already present (last write wins) and leaves every other
key unchanged; an object built from text with the repeated key `a` maps `a` to
the value of its last occurrence. -/
theorem object_keys_unique :
    (∀ (k : List Char) (v : Value) (m : List (List Char × Value)),
      sortedKeys m = true → sortedKeys (mapInsert k v m) = true) ∧
    (∀ m : List (List Char × Value), sortedKeys m = true → (m.map Prod.fst).Nodup) ∧
    (∀ (k : List Char) (v : Value) (m : List (List Char × Value)),
      mapLookup k (mapInsert k v m) = some v) ∧
    (∀ (k k2 : List Char) (v : Value) (m : List (List Char × Value)), k2 ≠ k →
      mapLookup k2 (mapInsert k v m) = mapLookup k2 m) ∧
    parseTop "\x7b\x22a\x22:1,\x22a\x22:2\x7d" = .ok (.VObject [("a".data, .VInt 2)]) :=
  ⟨fun k v m hm => mapInsert_sorted k v m hm,
   fun m hm => sorted_keys_nodup m hm,
   fun k v m => mapLookup_insert k v m,
   fun k k2 v m hne => mapLookup_insert_ne k k2 v hne m,
   rfl⟩

/-- C9 witness: inserting `b` into the sorted singleton `a` keeps sortedness,
the singleton keys are duplicate-free, and looking up `c` is unaffected. -/
theorem object_keys_unique_witness :
    sortedKeys (mapInsert "b".data (.VInt 1) [("a".data, .VNull)]) = true ∧
    ([("a".data, Value.VNull)].map Prod.fst).Nodup ∧
    mapLookup "c".data (mapInsert "b".data (.VInt 1) [("a".data, .VNull)])
      = mapLookup "c".data [("a".data, .VNull)] :=
  ⟨object_keys_unique.1 "b".data (.VInt 1) [("a".data, .VNull)] (by decide),
   object_keys_unique.2.1 [("a".data, .VNull)] (by decide),
   object_keys_unique.2.2.2.1 "b".data "c".data (.VInt 1) [("a".data, .VNull)] (by decide)⟩

/-- C2 (amended): for every tree the serializer can faithfully feed back to this
parser — no `Float` nodes, integers in `[0, 2147483647]`, strings and keys free
of `"`, object entry lists sorted as `std::map` stores them — parsing the
serialized text returns exactly the original tree. -/
theorem roundtrip (v : Value) (hv : goodValue v = true) :
    parseList (generate v) = .ok v := by
  obtain ⟨c, t, hct, hcsp, hcx1, hcx2, hcx3⟩ := gen_head v hv
  have hA := (roundtrip_run (parserFuel (generate v))).1 v [] [] false false hv
    (by
      have h1 := cost_le_gen v hv
      show cost v ≤ 3 * (generate v).length + 3
      omega)
    trivial
  rw [List.append_nil] at hA
  have hA2 : parseRun (generate v) (parserFuel (generate v)) .value ⟨0, false, false⟩
      = (.ok v, ⟨0 + (generate v).length, false, false⟩) := hA
  have hws : parse_whitespace (generate v) ⟨0, false, false⟩ = ⟨0, false, false⟩ := by
    rw [hct]
    exact ws_nop2 _ 0 false false (by simp) hcsp
  show (parseRun (generate v) (parserFuel (generate v)) .value
      (parse_whitespace (generate v) ⟨0, false, false⟩)).1 = .ok v
  rw [hws, hA2]

set_option maxHeartbeats 1000000 in
/-- C2 counterexample: the tree `Int(-5)` contains no string with an embedded
quote, yet the round trip fails: the serializer emits `-5`, and the number scan
never accepts `-`, so the dispatch falls into the default error branch. -/
theorem roundtrip_counterexample :
    generate (.VInt (-5)) = "-5".data ∧
    parseList (generate (.VInt (-5))) ≠ .ok (.VInt (-5)) := by
  refine ⟨by decide, ?_⟩
  have hbase : parseList (generate (.VInt (-5)))
      = .err "find - at the beginning, cant parse".data := rfl
  rw [hbase]
  exact fun h => Res.noConfusion h

set_option maxHeartbeats 1000000 in
/-- C2 witness: a concrete good tree with an object, an array, a string and
scalars survives the round trip. -/
theorem roundtrip_witness :
    goodValue (.VObject [("a".data, .VInt 1),
      ("b".data, .VArray [.VNull, .VBool true, .VString "hi".data])]) = true ∧
    parseList (generate (.VObject [("a".data, .VInt 1),
      ("b".data, .VArray [.VNull, .VBool true, .VString "hi".data])]))
      = .ok (.VObject [("a".data, .VInt 1),
        ("b".data, .VArray [.VNull, .VBool true, .VString "hi".data])]) :=
  ⟨by decide, roundtrip _ (by decide)⟩

end ClaimTheorems
